import Mathlib

/-!
# Verification of the rondo round-robin time-series storage engine

A shallow embedding of the core of the `rondo` crate (ring buffer over a
slab, consolidation engine, export drain, series registry, schema hashing),
together with theorems settling the frozen claims about the specification.

Modelling conventions:
* `f64` values are embedded as the inductive `Val`: the NaN sentinel, the two
  infinities, and finite values carried as exact rationals.  The claims
  settled here depend only on the NaN/infinite/finite classification and on
  exact arithmetic identities, not on IEEE-754 rounding.
* `u64` timestamps and `u32` indices are embedded as `Nat`; the quantities
  involved never overflow 64 bits in the claims' scope (slot indices are
  reduced `% slot_count`, timestamps are compared, never multiplied).
* The memory-mapped slab is embedded as explicit lists: a timestamp column
  (`timestamps`) and per-slot value rows (`values`), exactly the data the
  `RingBuffer` code reads and writes through `Slab` accessors.
* Fallible operations return `Except Err`; the Rust code validates all
  inputs before performing any mutation, which the embedding mirrors by
  constructing the successor state only on the `ok` path.
-/

namespace Rondo

/-- Embedded IEEE-754 double: NaN sentinel, infinities, or a finite value
    (carried as an exact rational). -/
inductive Val where
  | nan : Val
  | inf : Val
  | ninf : Val
  | fin : ℚ → Val
deriving DecidableEq, Repr

/-- `f64::is_nan`. -/
def Val.isNaN : Val → Bool
  | .nan => true
  | _ => false

/-- `f64::is_infinite`. -/
def Val.isInfinite : Val → Bool
  | .inf => true
  | .ninf => true
  | _ => false

/-- `f64::is_finite`. -/
def Val.isFinite : Val → Bool
  | .fin _ => true
  | _ => false

/-- Typed errors of the engine (`error.rs`), collapsed to the variants the
    embedded operations can produce. -/
inductive Err where
  | invalidValue
  | invalidTimestamp
  | invalidTimeRange
  | noConsolidationFn
  | invalidLabel
  | noMatchingSchema
  | maxSeriesExceeded
deriving DecidableEq, Repr

/-! ## Ring buffer (`ring.rs` over the slab state of `slab.rs`) -/

/-- The ring buffer together with the slab state it owns.

  * `timestamps` embeds the slab's timestamp column (`slot_count` entries,
    0 = empty);
  * `values` embeds the value columns, indexed first by slot then by series
    column (NaN = unwritten);
  * `writeCursor` embeds the header's write cursor;
  * `hasWrapped` is the `RingBuffer::has_wrapped` flag. -/
structure RingBuffer where
  slotCount : Nat
  maxSeries : Nat
  intervalNs : Nat
  timestamps : List Nat
  values : List (List Val)
  writeCursor : Nat
  hasWrapped : Bool
deriving DecidableEq, Repr

/-- A freshly created ring over a freshly created slab: all timestamps zero,
    all values NaN, cursor 0, not wrapped (`Slab::create` + `RingBuffer::new`). -/
def freshRing (slotCount maxSeries intervalNs : Nat) : RingBuffer where
  slotCount := slotCount
  maxSeries := maxSeries
  intervalNs := intervalNs
  timestamps := List.replicate slotCount 0
  values := List.replicate slotCount (List.replicate maxSeries Val.nan)
  writeCursor := 0
  hasWrapped := false

/-- `Slab::read_timestamp` at a slot. -/
def RingBuffer.tsAt (r : RingBuffer) (slot : Nat) : Nat :=
  r.timestamps.getD slot 0

/-- `Slab::read_value` at a slot and series column. -/
def RingBuffer.valAt (r : RingBuffer) (slot col : Nat) : Val :=
  (r.values.getD slot []).getD col Val.nan

/-- `RingBuffer::compute_slot`:
    `((timestamp_ns / interval_ns) % slot_count as u64) as u32`. -/
def RingBuffer.computeSlot (r : RingBuffer) (timestampNs : Nat) : Nat :=
  (timestampNs / r.intervalNs) % r.slotCount

/-- `RingBuffer::is_empty`: the slot under the cursor holds no timestamp. -/
def RingBuffer.isEmpty (r : RingBuffer) : Bool :=
  r.tsAt r.writeCursor = 0

/-- The state mutation performed by `RingBuffer::write` after validation:
    update the wrapped flag, store timestamp and value at the computed slot,
    and move the cursor when `has_wrapped || slot_index >= current_cursor`. -/
def RingBuffer.writeCore (r : RingBuffer) (col : Nat) (v : Val) (ts : Nat) : RingBuffer :=
  let slot := r.computeSlot ts
  let wrapped := r.hasWrapped || decide (slot < r.writeCursor)
  { r with
    timestamps := r.timestamps.set slot ts
    values := r.values.set slot ((r.values.getD slot []).set col v)
    writeCursor := if wrapped || decide (r.writeCursor ≤ slot) then slot else r.writeCursor
    hasWrapped := wrapped }

/-- `RingBuffer::write`: reject infinite values and timestamp zero, then
    mutate the slab. -/
def RingBuffer.write (r : RingBuffer) (col : Nat) (v : Val) (ts : Nat) :
    Except Err RingBuffer :=
  if v.isInfinite then .error .invalidValue
  else if ts = 0 then .error .invalidTimestamp
  else .ok (r.writeCore col v ts)

/-- The state mutation of `RingBuffer::write_batch` after validation: write
    the timestamp once, write every entry's value at the same slot, update
    the cursor once. -/
def RingBuffer.writeBatchCore (r : RingBuffer) (entries : List (Nat × Val)) (ts : Nat) :
    RingBuffer :=
  let slot := r.computeSlot ts
  let wrapped := r.hasWrapped || decide (slot < r.writeCursor)
  let row := entries.foldl (fun row e => row.set e.1 e.2) (r.values.getD slot [])
  { r with
    timestamps := r.timestamps.set slot ts
    values := r.values.set slot row
    writeCursor := if wrapped || decide (r.writeCursor ≤ slot) then slot else r.writeCursor
    hasWrapped := wrapped }

/-- `RingBuffer::write_batch`: validate the timestamp first, then every
    value, before any slot is touched. -/
def RingBuffer.writeBatch (r : RingBuffer) (entries : List (Nat × Val)) (ts : Nat) :
    Except Err RingBuffer :=
  if ts = 0 then .error .invalidTimestamp
  else
    match entries.find? (fun e => e.2.isInfinite) with
    | some _ => .error .invalidValue
    | none => .ok (r.writeBatchCore entries ts)

/-- The ring as left behind by `RingBuffer::write` on a `&mut self` receiver:
    unchanged when the call errors (all validation precedes mutation in the
    source), the mutated state otherwise. -/
def RingBuffer.writeOr (r : RingBuffer) (col : Nat) (v : Val) (ts : Nat) : RingBuffer :=
  match r.write col v ts with
  | .ok r' => r'
  | .error _ => r

/-- Same for `RingBuffer::write_batch`. -/
def RingBuffer.writeBatchOr (r : RingBuffer) (entries : List (Nat × Val)) (ts : Nat) :
    RingBuffer :=
  match r.writeBatch entries ts with
  | .ok r' => r'
  | .error _ => r

/-- The slot visit order of `RingIterator::new`/`next`: nothing when empty;
    slots `0 .. cursor+1` when not wrapped; `slot_count` slots starting at
    `(cursor+1) % slot_count` when wrapped. -/
def RingBuffer.visitOrder (r : RingBuffer) : List Nat :=
  if r.isEmpty then []
  else if r.hasWrapped then
    (List.range r.slotCount).map (fun k => ((r.writeCursor + 1) % r.slotCount + k) % r.slotCount)
  else
    List.range (r.writeCursor + 1)

/-- The points yielded by a full run of `RingIterator`: visit the slots in
    order and yield `(ts, value)` when `start ≤ ts < end` and the value is
    not NaN. -/
def RingBuffer.readPoints (r : RingBuffer) (col startNs endNs : Nat) : List (Nat × Val) :=
  r.visitOrder.filterMap (fun s =>
    let t := r.tsAt s
    let v := r.valAt s col
    if startNs ≤ t ∧ t < endNs ∧ v.isNaN = false then some (t, v) else none)

/-- `RingBuffer::read`: reject `start ≥ end`, otherwise return the iterator
    (embedded as the list of points it yields). -/
def RingBuffer.read (r : RingBuffer) (col startNs endNs : Nat) :
    Except Err (List (Nat × Val)) :=
  if startNs ≥ endNs then .error .invalidTimeRange
  else .ok (r.readPoints col startNs endNs)

/-- `RingBuffer::oldest_timestamp`: `None` on empty; when wrapped, the slot
    after the cursor (or `None` if that slot is empty); otherwise the first
    non-zero timestamp in slot order. -/
def RingBuffer.oldestTimestamp (r : RingBuffer) : Option Nat :=
  if r.isEmpty then none
  else if r.hasWrapped then
    let t := r.tsAt ((r.writeCursor + 1) % r.slotCount)
    if t ≠ 0 then some t else none
  else
    (List.range r.slotCount).findSome? (fun s =>
      if r.tsAt s ≠ 0 then some (r.tsAt s) else none)

/-- `RingBuffer::newest_timestamp`: `None` on empty, else the timestamp
    under the write cursor (or `None` if zero). -/
def RingBuffer.newestTimestamp (r : RingBuffer) : Option Nat :=
  if r.isEmpty then none
  else
    let t := r.tsAt r.writeCursor
    if t ≠ 0 then some t else none

/-- A sequence of `RingBuffer::write` calls, stopping at the first error.
    Each element is `(series_column, value, timestamp_ns)`. -/
def writeSeq (r : RingBuffer) (ws : List (Nat × Val × Nat)) : Except Err RingBuffer :=
  ws.foldlM (fun r w => r.write w.1 w.2.1 w.2.2) r

/-! ## Consolidation functions (`schema.rs`, `ConsolidationFn`) -/

/-- The six reducers. -/
inductive ConsolidationFn where
  | average
  | min
  | max
  | last
  | sum
  | count
deriving DecidableEq, Repr

/-- The finite entries of a value slice, in order: embeds
    `values.iter().copied().filter(|v| v.is_finite()).collect()`. -/
def finVals (values : List Val) : List ℚ :=
  values.filterMap (fun v => match v with | .fin q => some q | _ => none)

/-- The arithmetic of `ConsolidationFn::apply` on the already-filtered
    finite values: NaN on an empty slice, otherwise the aggregate.  The
    `min`/`max` folds from `f64::INFINITY` / `f64::NEG_INFINITY` reduce, on a
    non-empty finite slice, to folds from the head. -/
def ConsolidationFn.applyFin : ConsolidationFn → List ℚ → Val
  | _, [] => Val.nan
  | .average, q :: qs => .fin (((q :: qs).foldl (· + ·) 0) / (qs.length + 1))
  | .min, q :: qs => .fin (qs.foldl Min.min q)
  | .max, q :: qs => .fin (qs.foldl Max.max q)
  | .last, q :: qs => .fin (qs.getLastD q)
  | .sum, q :: qs => .fin ((q :: qs).foldl (· + ·) 0)
  | .count, _ :: qs => .fin ((qs.length + 1 : ℚ))

/-- `ConsolidationFn::apply`: filter to the finite values, then aggregate. -/
def ConsolidationFn.apply (f : ConsolidationFn) (values : List Val) : Val :=
  f.applyFin (finVals values)

/-! ## General-purpose list helpers -/

instance {ε α : Type _} [DecidableEq ε] [DecidableEq α] : DecidableEq (Except ε α) := fun a b =>
  match a, b with
  | .ok x, .ok y =>
    if h : x = y then .isTrue (by rw [h]) else .isFalse (by intro hc; cases hc; exact h rfl)
  | .error x, .error y =>
    if h : x = y then .isTrue (by rw [h]) else .isFalse (by intro hc; cases hc; exact h rfl)
  | .ok _, .error _ => .isFalse (by intro hc; cases hc)
  | .error _, .ok _ => .isFalse (by intro hc; cases hc)

instance : DecidableEq (List (List RingBuffer) × List ((Nat × Nat × Nat) × Nat) × Nat) :=
  instDecidableEqProd

instance : DecidableEq ((List (List RingBuffer) × List ((Nat × Nat × Nat) × Nat) × Nat) ×
    Option (List ((Nat × Nat × Nat) × Nat))) :=
  instDecidableEqProd

/-! ## Export drain (`export.rs`) -/

/-- `SeriesHandle` (`series.rs`): schema index, series id, column. -/
structure SeriesHandle where
  schema_index : Nat
  series_id : Nat
  column : Nat
deriving DecidableEq, Repr

/-- A per-series batch produced by the drain (`SeriesExport`). -/
structure SeriesExport where
  handle : SeriesHandle
  points : List (Nat × Val)
deriving DecidableEq, Repr

/-- Association-list embedding of a `HashMap` keyed lookup; the Rust key is
    the string `"{a}:{b}:{c}"`, injective on the triple. -/
def lookupA {κ : Type _} [DecidableEq κ] : List (κ × Nat) → κ → Option Nat
  | [], _ => none
  | e :: rest, key => if e.1 = key then some e.2 else lookupA rest key

/-- `HashMap::insert`: replace the binding when present, else add it. -/
def updateA {κ : Type _} [DecidableEq κ] : List (κ × Nat) → κ → Nat → List (κ × Nat)
  | [], key, ts => [(key, ts)]
  | e :: rest, key, ts => if e.1 = key then (key, ts) :: rest else e :: updateA rest key ts

/-- `ExportCursor`: last exported timestamp per `(schema, tier, column)`. -/
structure ExportCursor where
  cursors : List ((Nat × Nat × Nat) × Nat)
deriving DecidableEq, Repr

def ExportCursor.get (c : ExportCursor) (key : Nat × Nat × Nat) : Option Nat :=
  lookupA c.cursors key

def ExportCursor.update (c : ExportCursor) (key : Nat × Nat × Nat) (ts : Nat) : ExportCursor :=
  ⟨updateA c.cursors key ts⟩

/-- The read-and-advance tail of `drain_series`: read
    `[start, newest_ts + 1)` (propagating a read error), and advance the
    cursor to the last yielded timestamp when the batch is non-empty. -/
def drainSeriesRead (ring : RingBuffer) (key : Nat × Nat × Nat) (col start newestTs : Nat)
    (cursor : ExportCursor) : Except Err (List (Nat × Val) × ExportCursor) :=
  match ring.read col start (newestTs + 1) with
  | .error e => .error e
  | .ok points =>
    match points.getLast? with
    | some p => .ok (points, cursor.update key p.1)
    | none => .ok (points, cursor)

/-- `drain_series`: read everything newer than the cursor (else from the
    oldest stored timestamp) up to the ring's newest timestamp. -/
def drainSeries (ring : RingBuffer) (schemaIndex tierIndex seriesColumn : Nat)
    (cursor : ExportCursor) : Except Err (List (Nat × Val) × ExportCursor) :=
  match ring.oldestTimestamp, ring.newestTimestamp with
  | some oldestTs, some newestTs =>
    let start := match cursor.get (schemaIndex, tierIndex, seriesColumn) with
      | some ts => ts + 1
      | none => oldestTs
    if start > newestTs then .ok ([], cursor)
    else drainSeriesRead ring (schemaIndex, tierIndex, seriesColumn) seriesColumn start
      newestTs cursor
  | _, _ => .ok ([], cursor)

/-- `drain_tier`: drain every registered handle of this schema against the
    tier's ring, threading the cursor (errors propagate); empty batches are
    dropped. -/
def drainTier (rings : List (List RingBuffer)) (schemaIndex tierIndex : Nat) :
    List SeriesHandle → ExportCursor → Except Err (List SeriesExport × ExportCursor)
  | [], cursor => .ok ([], cursor)
  | h :: rest, cursor =>
    if h.schema_index ≠ schemaIndex then drainTier rings schemaIndex tierIndex rest cursor
    else
      match drainSeries ((rings.getD schemaIndex []).getD tierIndex (freshRing 0 0 0))
        schemaIndex tierIndex h.column cursor with
      | .error e => .error e
      | .ok (points, c') =>
        match drainTier rings schemaIndex tierIndex rest c' with
        | .error e => .error e
        | .ok (exps, c'') =>
          .ok ((if points.isEmpty then exps else ⟨h, points⟩ :: exps), c'')

/-! ## Schema configuration (`schema.rs`) -/

/-- `std::time::Duration`: seconds and sub-second nanoseconds. -/
structure Duration where
  secs : Nat
  nanos : Nat
deriving DecidableEq, Repr

/-- `Duration::as_nanos` (truncated to `u64` by the callers). -/
def Duration.asNanos (d : Duration) : Nat :=
  d.secs * 1000000000 + d.nanos

/-- `TierConfig`. -/
structure TierConfig where
  interval : Duration
  retention : Duration
  consolidation_fn : Option ConsolidationFn
deriving DecidableEq, Repr

/-- `SchemaConfig`; the `BTreeMap` label matcher is embedded as its
    (key-sorted) entry list. -/
structure SchemaConfig where
  name : String
  label_matcher : List (String × String)
  tiers : List TierConfig
  max_series : Nat
deriving DecidableEq, Repr

/-- The `HashMap` built from a label slice keeps the *last* value of a
    duplicated key (`collect` overwrites); this is its lookup. -/
def lookupLabel (labels : List (String × String)) (key : String) : Option String :=
  (labels.reverse.find? (fun l => l.1 = key)).map (fun l => l.2)

/-- `LabelMatcher::matches`: every required pair present with an exactly
    matching value. -/
def matcherMatches (m : List (String × String)) (labels : List (String × String)) : Bool :=
  m.all (fun kv => lookupLabel labels kv.1 = some kv.2)

/-! ## Series registry (`series.rs`) -/

/-- Byte-wise lexicographic `≤` on strings as their character lists: Rust's
    `str::cmp` (UTF-8 byte order coincides with scalar-value order). -/
def charListLe : List Char → List Char → Bool
  | [], _ => true
  | _ :: _, [] => false
  | a :: as, b :: bs => if a = b then charListLe as bs else decide (a < b)

/-- The comparison `|a, b| a.0.cmp(&b.0)` used by `SeriesKey::new`. -/
def keyLE (a b : String × String) : Prop :=
  charListLe a.1.data b.1.data = true

instance : DecidableRel keyLE := fun a b => by
  unfold keyLE
  infer_instance

/-- `SeriesInfo`. -/
structure SeriesInfo where
  name : String
  labels : List (String × String)
  schema_index : Nat
  series_id : Nat
  column : Nat
deriving DecidableEq, Repr

/-- `SeriesInfo::handle`. -/
def SeriesInfo.handle (info : SeriesInfo) : SeriesHandle :=
  ⟨info.schema_index, info.series_id, info.column⟩

/-- `SeriesKey`: name plus key-sorted labels. -/
structure SeriesKey where
  name : String
  labels : List (String × String)
deriving DecidableEq, Repr

/-- `SeriesKey::new`: stable-sort the labels by key only (`sort_by` is a
    stable sort, as is `insertionSort`). -/
def mkSeriesKey (name : String) (labels : List (String × String)) : SeriesKey :=
  ⟨name, List.insertionSort keyLE labels⟩

/-- `SeriesRegistry` state. -/
structure SeriesRegistry where
  schemas : List SchemaConfig
  series_map : List (SeriesKey × SeriesInfo)
  next_series_id : List Nat
  next_column : List Nat
deriving DecidableEq, Repr

/-- `HashMap::get` on the series map. -/
def findSeries (m : List (SeriesKey × SeriesInfo)) (key : SeriesKey) : Option SeriesInfo :=
  (m.find? (fun e => e.1 = key)).map (fun e => e.2)

/-- `validate_labels` on one pair: non-empty key and value, no reserved
    `__` prefix (`key.starts_with("__")` on the characters). -/
def validLabel (kv : String × String) : Bool :=
  kv.1 != "" && kv.2 != "" && kv.1.data.take 2 != ['_', '_']

/-- `find_matching_schema`: the first schema whose matcher accepts. -/
def findMatchingSchema (schemas : List SchemaConfig) (labels : List (String × String)) :
    Option Nat :=
  (List.range schemas.length).find? (fun idx =>
    matcherMatches (schemas.getD idx (SchemaConfig.mk "" [] [] 0)).label_matcher labels)

/-- `SeriesRegistry::series_count`. -/
def SeriesRegistry.seriesCount (reg : SeriesRegistry) (schemaIndex : Nat) : Nat :=
  if schemaIndex < reg.next_series_id.length then reg.next_series_id.getD schemaIndex 0 else 0

/-- The allocation tail of `register`, reached when the series is new:
    route to the first matching schema, enforce capacity, allocate the next
    series id and column, and append to the registry. -/
def registerNew (reg : SeriesRegistry) (name : String) (labels : List (String × String)) :
    Except Err (SeriesHandle × SeriesRegistry) :=
  match findMatchingSchema reg.schemas labels with
  | none => .error .noMatchingSchema
  | some schemaIndex =>
    if (reg.schemas.getD schemaIndex (SchemaConfig.mk "" [] [] 0)).max_series ≤
        reg.next_series_id.getD schemaIndex 0 then
      .error .maxSeriesExceeded
    else
      let seriesId := reg.next_series_id.getD schemaIndex 0
      let column := reg.next_column.getD schemaIndex 0
      let info : SeriesInfo := ⟨name, labels, schemaIndex, seriesId, column⟩
      .ok (info.handle,
        { reg with
          series_map := reg.series_map ++ [(mkSeriesKey name labels, info)]
          next_series_id := reg.next_series_id.set schemaIndex (seriesId + 1)
          next_column := reg.next_column.set schemaIndex (column + 1) })

/-- `SeriesRegistry::register`: validate the name and labels, return the
    existing handle when the canonical key is registered, else allocate. -/
def register (reg : SeriesRegistry) (name : String) (labels : List (String × String)) :
    Except Err (SeriesHandle × SeriesRegistry) :=
  if name = "" then .error .invalidLabel
  else if labels.all validLabel then
    match findSeries reg.series_map (mkSeriesKey name labels) with
    | some info => .ok (info.handle, reg)
    | none => registerNew reg name labels
  else .error .invalidLabel

/-! ## Consolidation engine (`consolidate.rs`)

The engine state is the ring matrix (indexed `[schema_index][tier_index]`)
plus the consolidation cursors, a map keyed by
`(schema_index, source_tier_index, dest_tier_index)` holding the last
processed source timestamp (`ConsolidationCursors`, modeled as an
association list like the export cursor).  `HashMap` iteration order is
not specified in Rust; the window map `all_windows.values()` is modeled
in ascending `window_start` order and the per-window column map in
ascending column order — a fixed deterministic choice. -/

/-- Default tier used for out-of-range `getD` access. -/
def tierDflt : TierConfig :=
  TierConfig.mk (Duration.mk 0 0) (Duration.mk 0 0) none

/-- `rings[schema_index][tier_index]`. -/
def getRing (rings : List (List RingBuffer)) (s t : Nat) : RingBuffer :=
  (rings.getD s []).getD t (freshRing 0 0 0)

/-- Replace `rings[schema_index][tier_index]`. -/
def setRing (rings : List (List RingBuffer)) (s t : Nat) (r : RingBuffer) :
    List (List RingBuffer) :=
  rings.set s ((rings.getD s []).set t r)

/-- `ConsolidationEngine::get_or_initialize_cursor`: return the stored
    timestamp, or insert and return `0` on first contact with the pair. -/
def getOrInitializeCursor (cursors : List ((Nat × Nat × Nat) × Nat))
    (key : Nat × Nat × Nat) : Nat × List ((Nat × Nat × Nat) × Nat) :=
  match lookupA cursors key with
  | some ts => (ts, cursors)
  | none => (0, updateA cursors key 0)

/-- The start of the range of new data: from the oldest available data on
    the first run (`last_processed == 0`), else from one source interval
    past the cursor. -/
def pairStart (src : RingBuffer) (srcTier : TierConfig) (lastProcessed : Nat) : Nat :=
  if lastProcessed = 0 then (src.oldestTimestamp).getD 0
  else lastProcessed + srcTier.interval.asNanos

/-- The exclusive end of the range: one past the newest source timestamp,
    `0` when the source is empty. -/
def pairEnd (src : RingBuffer) : Nat :=
  match src.newestTimestamp with
  | none => 0
  | some t => t + 1

/-- The window grouping pass of `process_consolidation_windows`: for every
    series column, every non-NaN source point in range is tagged with its
    destination window start `(timestamp / dest_interval) * dest_interval`
    and its column. -/
def windowPoints (src : RingBuffer) (maxSeries startTs endTs dstIntervalNs : Nat) :
    List (Nat × Nat × Val) :=
  (List.range maxSeries).flatMap (fun col =>
    (src.readPoints col startTs endTs).map (fun p =>
      (p.1 / dstIntervalNs * dstIntervalNs, col, p.2)))

/-- The values collected for one `(window, column)` cell, in read order. -/
def winVals (pts : List (Nat × Nat × Val)) (w col : Nat) : List Val :=
  (pts.filter (fun p => decide (p.1 = w) && decide (p.2.1 = col))).map (fun p => p.2.2)

/-- The distinct window starts, iterated in ascending order (a fixed model
    of `all_windows.values()`). -/
def windowList (pts : List (Nat × Nat × Val)) : List Nat :=
  List.insertionSort (fun a b => a ≤ b) ((pts.map (fun p => p.1)).dedup)

/-- The inner write loop of `process_consolidation_windows`: for one
    window, visit each column; a nonempty cell consolidates
    (`ConsolidationFn::apply`) and writes at the window start, counting
    one operation. -/
def writeWinCols (pts : List (Nat × Nat × Val)) (f : ConsolidationFn) (w : Nat) :
    List Nat → RingBuffer × Nat → Except Err (RingBuffer × Nat)
  | [], acc => .ok acc
  | col :: cols, acc =>
    if (winVals pts w col).isEmpty then writeWinCols pts f w cols acc
    else
      match acc.1.write col (f.apply (winVals pts w col)) w with
      | .error e => .error e
      | .ok r => writeWinCols pts f w cols (r, acc.2 + 1)

/-- The outer write loop over all windows. -/
def writeWins (pts : List (Nat × Nat × Val)) (f : ConsolidationFn) (maxSeries : Nat) :
    List Nat → RingBuffer × Nat → Except Err (RingBuffer × Nat)
  | [], acc => .ok acc
  | w :: ws, acc =>
    match writeWinCols pts f w (List.range maxSeries) acc with
    | .error e => .error e
    | .ok acc' => writeWins pts f maxSeries ws acc'

/-- `process_consolidation_windows` on pre-collected points: returns the
    written destination ring and the number of operations. -/
def writeWindows (dst : RingBuffer) (pts : List (Nat × Nat × Val)) (f : ConsolidationFn)
    (maxSeries : Nat) : Except Err (RingBuffer × Nat) :=
  writeWins pts f maxSeries (windowList pts) (dst, 0)

/-- The body of `consolidate_tier_pair` once the destination tier's
    consolidation function is in hand: get-or-initialize the cursor,
    compute the new-data range, skip when empty, otherwise process the
    windows, and advance the cursor to the source's newest timestamp only
    when at least one operation was performed (error propagation by
    `Except.map`, as the tail after the `?` is pure). -/
def consolidateTierPairF (schema : SchemaConfig) (si s d : Nat)
    (rings : List (List RingBuffer)) (cursors : List ((Nat × Nat × Nat) × Nat))
    (f : ConsolidationFn) :
    Except Err (List (List RingBuffer) × List ((Nat × Nat × Nat) × Nat) × Nat) :=
  if pairEnd (getRing rings si s) ≤
      pairStart (getRing rings si s) (schema.tiers.getD s tierDflt)
        (getOrInitializeCursor cursors (si, s, d)).1 then
    .ok (rings, (getOrInitializeCursor cursors (si, s, d)).2, 0)
  else
    (writeWindows (getRing rings si d)
        (windowPoints (getRing rings si s) schema.max_series
          (pairStart (getRing rings si s) (schema.tiers.getD s tierDflt)
            (getOrInitializeCursor cursors (si, s, d)).1)
          (pairEnd (getRing rings si s))
          (schema.tiers.getD d tierDflt).interval.asNanos) f schema.max_series).map
      (fun res =>
        (setRing rings si d res.1,
          if 0 < res.2 then
            updateA (getOrInitializeCursor cursors (si, s, d)).2 (si, s, d)
              ((getRing rings si s).newestTimestamp.getD 0)
          else (getOrInitializeCursor cursors (si, s, d)).2,
          res.2))

/-- `ConsolidationEngine::consolidate_tier_pair`: require a consolidation
    function on the destination tier, then run the body. -/
def consolidateTierPair (schema : SchemaConfig) (schemaIndex srcTier dstTier : Nat)
    (rings : List (List RingBuffer)) (cursors : List ((Nat × Nat × Nat) × Nat)) :
    Except Err (List (List RingBuffer) × List ((Nat × Nat × Nat) × Nat) × Nat) :=
  match (schema.tiers.getD dstTier tierDflt).consolidation_fn with
  | none => .error .noConsolidationFn
  | some f => consolidateTierPairF schema schemaIndex srcTier dstTier rings cursors f

/-- The tier pairs of one schema: adjacent pairs `(k, k+1)`, none when the
    schema has fewer than two tiers. -/
def schemaPairs (sch : SchemaConfig) (si : Nat) : List (SchemaConfig × Nat × Nat × Nat) :=
  if sch.tiers.length < 2 then []
  else (List.range (sch.tiers.length - 1)).map (fun k => (sch, si, k, k + 1))

/-- The pairs of every schema, in the iteration order of `consolidate`. -/
def pairsOfAux : List SchemaConfig → Nat → List (SchemaConfig × Nat × Nat × Nat)
  | [], _ => []
  | sch :: rest, si => schemaPairs sch si ++ pairsOfAux rest (si + 1)

/-- All tier pairs processed by one `consolidate` call. -/
def pairsOf (schemas : List SchemaConfig) : List (SchemaConfig × Nat × Nat × Nat) :=
  pairsOfAux schemas 0

/-- The pair loop of `consolidate`, accumulating the operation total and
    aborting on the first error. -/
def runPairs : List (SchemaConfig × Nat × Nat × Nat) →
    List (List RingBuffer) → List ((Nat × Nat × Nat) × Nat) → Nat →
    Except Err (List (List RingBuffer) × List ((Nat × Nat × Nat) × Nat) × Nat)
  | [], rings, cursors, total => .ok (rings, cursors, total)
  | p :: ps, rings, cursors, total =>
    match consolidateTierPair p.1 p.2.1 p.2.2.1 p.2.2.2 rings cursors with
    | .error e => .error e
    | .ok res => runPairs ps res.1 res.2.1 (total + res.2.2)

/-- `ConsolidationEngine::consolidate` without the file effect: process
    every tier pair of every schema. -/
def consolidate (schemas : List SchemaConfig) (rings : List (List RingBuffer))
    (cursors : List ((Nat × Nat × Nat) × Nat)) :
    Except Err (List (List RingBuffer) × List ((Nat × Nat × Nat) × Nat) × Nat) :=
  runPairs (pairsOf schemas) rings cursors 0

/-- `ConsolidationEngine::consolidate` including the
    `consolidation_cursors.json` effect: the fourth component is the file
    state after the call (`none` = the file does not exist, `some m` = the
    file holds the cursor map `m`).  `save_cursors` is called
    unconditionally on the success path (consolidate.rs line 309), so the
    file is always (re)written on success. -/
def consolidateFS (schemas : List SchemaConfig) (rings : List (List RingBuffer))
    (cursors : List ((Nat × Nat × Nat) × Nat))
    (file : Option (List ((Nat × Nat × Nat) × Nat))) :
    Except Err ((List (List RingBuffer) × List ((Nat × Nat × Nat) × Nat) × Nat) ×
      Option (List ((Nat × Nat × Nat) × Nat))) :=
  match consolidate schemas rings cursors with
  | .error e => .error e
  | .ok res => .ok (res, some res.2.1)

/-! ## Stable hash (`schema.rs`, `SchemaConfig::stable_hash`)

`stable_hash` feeds `label_matcher`, `tiers` and `max_series` — but not
`name` — into a `DefaultHasher` and returns `finish()`.  The hasher is
abstracted as the exact sequence of values written to it (`SipHash`
itself is treated as a black box applied to that stream): the `BTreeMap`
hashes its length and then each `(key, value)` entry in key order, the
`Vec` hashes its length and then each element, a `Duration` its seconds
and nanoseconds, an `Option` its discriminant and payload, and each
string write is one token (Rust terminates each string's bytes with
`0xff`, keeping the stream uniquely decodable). -/

/-- One value written to the hasher. -/
inductive HashToken where
  | nat : Nat → HashToken
  | str : String → HashToken
  | disc : Nat → HashToken
deriving DecidableEq, Repr

/-- The discriminant of a `ConsolidationFn` as hashed by `derive(Hash)`. -/
def fnDisc : ConsolidationFn → Nat
  | .average => 0
  | .min => 1
  | .max => 2
  | .last => 3
  | .sum => 4
  | .count => 5

/-- `Option<ConsolidationFn>` hashes its discriminant, then the payload. -/
def hashOptionFn : Option ConsolidationFn → List HashToken
  | none => [HashToken.disc 0]
  | some f => [HashToken.disc 1, HashToken.disc (fnDisc f)]

/-- A `Duration` hashes its seconds and nanoseconds. -/
def hashDuration (d : Duration) : List HashToken :=
  [HashToken.nat d.secs, HashToken.nat d.nanos]

/-- A `TierConfig` hashes interval, retention, and the optional reducer. -/
def hashTier (t : TierConfig) : List HashToken :=
  hashDuration t.interval ++ hashDuration t.retention ++ hashOptionFn t.consolidation_fn

/-- `SchemaConfig::stable_hash` as the hasher's input stream: the label
    matcher (length, then entries), the tier vector (length, then
    elements), and `max_series`; the schema name is deliberately
    excluded. -/
def stableHash (cfg : SchemaConfig) : List HashToken :=
  (HashToken.nat cfg.label_matcher.length ::
    cfg.label_matcher.flatMap (fun kv => [HashToken.str kv.1, HashToken.str kv.2])) ++
  (HashToken.nat cfg.tiers.length :: cfg.tiers.flatMap hashTier) ++
  [HashToken.nat cfg.max_series]

/-- The state invariant maintained by valid writes arriving in
    non-decreasing timestamp order, each within one window of
    `slot_count` buckets (`ts / interval_ns`) of the data already stored:

    * every non-empty slot holds a timestamp that maps back to it
      (`compute_slot`);
    * the cursor slot holds the newest stored timestamp;
    * while the ring has not wrapped, non-empty slots sit at or below the
      cursor and their timestamps increase with the slot index;
    * once it has wrapped, every stored bucket is less than `slot_count`
      behind the cursor's bucket;
    * a non-NaN stored value implies a non-zero slot timestamp. -/
structure RingInv (r : RingBuffer) : Prop where
  hn : 0 < r.slotCount
  hi : 0 < r.intervalNs
  hlen : r.timestamps.length = r.slotCount
  hcur : r.writeCursor < r.slotCount
  slotOk : ∀ s, s < r.slotCount → r.tsAt s ≠ 0 →
    (r.tsAt s / r.intervalNs) % r.slotCount = s
  leNewest : ∀ s, s < r.slotCount → r.tsAt s ≠ 0 →
    r.tsAt s ≤ r.tsAt r.writeCursor
  noWrapBound : r.hasWrapped = false → ∀ s, s < r.slotCount → r.tsAt s ≠ 0 →
    s ≤ r.writeCursor
  noWrapMono : r.hasWrapped = false → ∀ s s', s < r.slotCount → s' < r.slotCount →
    r.tsAt s ≠ 0 → r.tsAt s' ≠ 0 → s < s' → r.tsAt s < r.tsAt s'
  wrapSpan : r.hasWrapped = true → ∀ s, s < r.slotCount → r.tsAt s ≠ 0 →
    r.tsAt r.writeCursor / r.intervalNs < r.tsAt s / r.intervalNs + r.slotCount
  valNan : ∀ s c, r.valAt s c ≠ Val.nan → r.tsAt s ≠ 0

/-- The strict refinement of `keyLE` that additionally separates the keys:
    on a list with pairwise-distinct keys, a `keyLE`-sorted order is
    `keyLT`-sorted, and `keyLT` is antisymmetric. -/
def keyLT (a b : String × String) : Prop :=
  keyLE a b ∧ a.1 ≠ b.1

theorem getD_set_self {α : Type _} (l : List α) {i : Nat} (a d : α) (h : i < l.length) :
    (l.set i a).getD i d = a := by
  simp [List.getD_eq_getElem?_getD, List.getElem?_set_self h]

theorem getD_set_ne {α : Type _} (l : List α) {i j : Nat} (h : i ≠ j) (a d : α) :
    (l.set i a).getD j d = l.getD j d := by
  simp [List.getD_eq_getElem?_getD, List.getElem?_set_ne h]

theorem getD_replicate {α : Type _} {n i : Nat} (a d : α) (h : i < n) :
    (List.replicate n a).getD i d = a := by
  simp [List.getD_eq_getElem?_getD, List.getElem?_replicate, h]

theorem set_getD_self {α : Type _} (l : List α) (i : Nat) (d : α) :
    l.set i (l.getD i d) = l := by
  induction l generalizing i with
  | nil => simp
  | cons x xs ih =>
    cases i with
    | zero => simp
    | succ n =>
      have := ih n
      simp only [List.getD_eq_getElem?_getD] at this
      simpa using this

/-! ## Basic facts about writes and reads -/

theorem RingBuffer.writeCore_slotCount (r : RingBuffer) (col : Nat) (v : Val) (ts : Nat) :
    (r.writeCore col v ts).slotCount = r.slotCount := rfl

theorem RingBuffer.writeCore_intervalNs (r : RingBuffer) (col : Nat) (v : Val) (ts : Nat) :
    (r.writeCore col v ts).intervalNs = r.intervalNs := rfl

theorem RingBuffer.writeCore_maxSeries (r : RingBuffer) (col : Nat) (v : Val) (ts : Nat) :
    (r.writeCore col v ts).maxSeries = r.maxSeries := rfl

theorem RingBuffer.writeCore_timestamps (r : RingBuffer) (col : Nat) (v : Val) (ts : Nat) :
    (r.writeCore col v ts).timestamps = r.timestamps.set (r.computeSlot ts) ts := rfl

/-- After each write the cursor points at the written slot: the cursor-update
    condition `has_wrapped || slot >= cursor` always holds, because a slot
    below the cursor has just set the wrapped flag. -/
theorem RingBuffer.writeCore_writeCursor (r : RingBuffer) (col : Nat) (v : Val) (ts : Nat) :
    (r.writeCore col v ts).writeCursor = r.computeSlot ts := by
  unfold RingBuffer.writeCore
  by_cases h : r.computeSlot ts < r.writeCursor
  · simp [h]
  · simp [h, Nat.le_of_not_lt h]

theorem RingBuffer.computeSlot_lt (r : RingBuffer) (ts : Nat) (hn : 0 < r.slotCount) :
    r.computeSlot ts < r.slotCount :=
  Nat.mod_lt _ hn

theorem RingBuffer.writeCore_tsAt_cursor (r : RingBuffer) (col : Nat) (v : Val) (ts : Nat)
    (hlen : r.timestamps.length = r.slotCount) (hn : 0 < r.slotCount) :
    (r.writeCore col v ts).tsAt ((r.writeCore col v ts).writeCursor) = ts := by
  rw [RingBuffer.writeCore_writeCursor]
  show (r.timestamps.set (r.computeSlot ts) ts).getD (r.computeSlot ts) 0 = ts
  exact getD_set_self _ _ _ (by rw [hlen]; exact r.computeSlot_lt ts hn)

theorem RingBuffer.writeCore_tsAt_ne (r : RingBuffer) (col : Nat) (v : Val) (ts : Nat)
    {s : Nat} (h : s ≠ r.computeSlot ts) :
    (r.writeCore col v ts).tsAt s = r.tsAt s :=
  getD_set_ne _ (fun e => h e.symm) _ _

/-- Any point yielded by the read iterator has a non-NaN value: the
    condition `!value.is_nan()` guards every `yield`. -/
theorem RingBuffer.readPoints_no_nan (r : RingBuffer) (col startNs endNs : Nat) :
    ∀ p ∈ r.readPoints col startNs endNs, p.2.isNaN = false := by
  intro p hp
  simp only [RingBuffer.readPoints, List.mem_filterMap] at hp
  obtain ⟨s, -, hs⟩ := hp
  split at hs
  · rename_i hcond
    cases hs
    exact hcond.2.2
  · cases hs

/-- Any point yielded by the read iterator over `[s', e)` is also yielded
    over the wider range `[s, e)` when `s ≤ s'`. -/
theorem RingBuffer.readPoints_mono (r : RingBuffer) (col : Nat) {s s' e : Nat}
    (h : s ≤ s') : ∀ p ∈ r.readPoints col s' e, p ∈ r.readPoints col s e := by
  intro p hp
  simp only [RingBuffer.readPoints, List.mem_filterMap] at hp ⊢
  obtain ⟨slot, hslot, hif⟩ := hp
  refine ⟨slot, hslot, ?_⟩
  split at hif
  · rename_i hcond
    rw [if_pos ⟨Nat.le_trans h hcond.1, hcond.2⟩]
    exact hif
  · cases hif

/-- Filtering a slice to its finite entries does not change the finite
    entries seen by a reducer. -/
theorem finVals_filter (values : List Val) :
    finVals (values.filter (fun v => v.isFinite)) = finVals values := by
  induction values with
  | nil => rfl
  | cons v vs ih => cases v <;> simpa [finVals, Val.isFinite] using ih

theorem applyFin_nil (f : ConsolidationFn) : f.applyFin [] = Val.nan := by
  cases f <;> rfl

theorem lookupA_updateA_self {κ : Type _} [DecidableEq κ] (l : List (κ × Nat)) (key : κ)
    (ts : Nat) : lookupA (updateA l key ts) key = some ts := by
  induction l with
  | nil => simp [lookupA, updateA]
  | cons e rest ih =>
    by_cases h : e.1 = key
    · simp [lookupA, updateA, h]
    · simp [lookupA, updateA, h, ih]

theorem lookupA_updateA_ne {κ : Type _} [DecidableEq κ] (l : List (κ × Nat)) {key key' : κ}
    (h : key' ≠ key) (ts : Nat) : lookupA (updateA l key ts) key' = lookupA l key' := by
  have hne : key ≠ key' := fun hk => h hk.symm
  induction l with
  | nil => simp [lookupA, updateA, hne]
  | cons e rest ih =>
    by_cases he : e.1 = key
    · simp [lookupA, updateA, he, hne]
    · simp only [updateA, if_neg he, lookupA, ih]


/-! ## Claim C6: write / write_batch error conditions -/

/-- C6 — For every ring buffer, `write` and `write_batch` return an error if
    and only if some supplied value is infinite or the timestamp is zero,
    and on such an error the ring (slots, values, cursor) is unchanged: all
    validation precedes any mutation in the source. -/
theorem claim_C6 (r : RingBuffer) (col : Nat) (v : Val) (ts : Nat)
    (entries : List (Nat × Val)) :
    ((∃ e, r.write col v ts = .error e) ↔ (v.isInfinite = true ∨ ts = 0)) ∧
    ((∃ e, r.write col v ts = .error e) → r.writeOr col v ts = r) ∧
    ((∃ e, r.writeBatch entries ts = .error e) ↔
      (ts = 0 ∨ ∃ p ∈ entries, p.2.isInfinite = true)) ∧
    ((∃ e, r.writeBatch entries ts = .error e) → r.writeBatchOr entries ts = r) := by
  refine ⟨⟨?_, ?_⟩, ?_, ⟨?_, ?_⟩, ?_⟩
  · rintro ⟨e, he⟩
    by_cases hv : v.isInfinite
    · exact Or.inl hv
    · by_cases ht : ts = 0
      · exact Or.inr ht
      · simp [RingBuffer.write, hv, ht] at he
  · rintro (hv | ht)
    · exact ⟨.invalidValue, by simp [RingBuffer.write, hv]⟩
    · by_cases hv : v.isInfinite
      · exact ⟨.invalidValue, by simp [RingBuffer.write, hv]⟩
      · exact ⟨.invalidTimestamp, by simp [RingBuffer.write, hv, ht]⟩
  · rintro ⟨e, he⟩
    simp [RingBuffer.writeOr, he]
  · rintro ⟨e, he⟩
    by_cases ht : ts = 0
    · exact Or.inl ht
    · rw [← List.find?_isSome]
      by_cases hf : (entries.find? (fun p => p.2.isInfinite)).isSome
      · exact Or.inr hf
      · rw [Option.not_isSome_iff_eq_none] at hf
        simp [RingBuffer.writeBatch, ht, hf] at he
  · intro h
    by_cases ht : ts = 0
    · exact ⟨.invalidTimestamp, by simp [RingBuffer.writeBatch, ht]⟩
    · have hf : (entries.find? (fun p => p.2.isInfinite)).isSome := by
        rw [List.find?_isSome]
        exact h.resolve_left ht
      obtain ⟨p, hp⟩ := Option.isSome_iff_exists.mp hf
      exact ⟨.invalidValue, by simp [RingBuffer.writeBatch, ht, hp]⟩
  · rintro ⟨e, he⟩
    simp [RingBuffer.writeBatchOr, he]

/-- Witness for C6 at concrete inputs: an infinite write errors and leaves
    the ring unchanged; a zero-timestamp batch errors likewise. -/
theorem claim_C6_witness :
    (∃ e, (freshRing 3 1 1).write 0 Val.inf 5 = .error e) ∧
    (freshRing 3 1 1).writeOr 0 Val.inf 5 = freshRing 3 1 1 ∧
    (∃ e, (freshRing 3 1 1).writeBatch [(0, Val.fin 1)] 0 = .error e) := by
  have h := claim_C6 (freshRing 3 1 1) 0 Val.inf 5 [(0, Val.fin 1)]
  have h1 := h.1.mpr (Or.inl (by decide))
  have h0 := claim_C6 (freshRing 3 1 1) 0 Val.inf 0 [(0, Val.fin 1)]
  exact ⟨h1, h.2.1 h1, h0.2.2.1.mpr (Or.inl rfl)⟩

/-! ## Claim C7: reducer semantics -/

/-- C7 counterexample — `ConsolidationFn::apply` filters to *finite* values,
    not merely non-NaN values: on the slice `[+∞]` the `Count` reducer
    returns NaN, while the number of non-NaN entries is 1 (the claim, as
    stated, predicts `Count = 1`). -/
theorem claim_C7_counterexample :
    ConsolidationFn.apply .count [Val.inf] = Val.nan ∧
    (List.filter (fun v => !v.isNaN) [Val.inf]).length = 1 ∧
    Val.nan ≠ Val.fin 1 :=
  ⟨rfl, rfl, by decide⟩

/-- C7 (amended) — Each reducer filters the slice to exactly its *finite*
    (non-NaN, non-infinite) entries before aggregating: Count returns the
    number of finite values, Last the most recent finite value, and the
    result is NaN when the filtered slice is empty. -/
theorem claim_C7_amended (f : ConsolidationFn) (values : List Val) :
    ConsolidationFn.apply f values =
      ConsolidationFn.apply f (values.filter (fun v => v.isFinite)) ∧
    ConsolidationFn.apply .count values =
      (if finVals values = [] then Val.nan else Val.fin ((finVals values).length : ℚ)) ∧
    ConsolidationFn.apply .last values =
      ((finVals values).map Val.fin).getLastD Val.nan ∧
    (finVals values = [] → ConsolidationFn.apply f values = Val.nan) := by
  refine ⟨?_, ?_, ?_, ?_⟩
  · unfold ConsolidationFn.apply
    rw [finVals_filter]
  · unfold ConsolidationFn.apply
    cases h : finVals values with
    | nil => simp [ConsolidationFn.applyFin]
    | cons q qs =>
      simp only [ConsolidationFn.applyFin, if_neg (List.cons_ne_nil q qs)]
      norm_cast
  · unfold ConsolidationFn.apply
    cases h : finVals values with
    | nil => simp [ConsolidationFn.applyFin]
    | cons q qs =>
      simp only [ConsolidationFn.applyFin, List.map_cons, List.getLastD_cons,
        List.getLastD_map]
  · intro h
    unfold ConsolidationFn.apply
    rw [h]
    exact applyFin_nil f

/-- Witness for C7 at concrete inputs, discharging the empty-filter
    hypothesis at `[+∞]` and evaluating Count and Last on a mixed slice. -/
theorem claim_C7_witness :
    ConsolidationFn.apply .average [Val.inf] = Val.nan ∧
    ConsolidationFn.apply .count [Val.nan, Val.fin 2, Val.inf, Val.fin 7] = Val.fin 2 ∧
    ConsolidationFn.apply .last [Val.fin 3, Val.inf, Val.fin 9, Val.nan] = Val.fin 9 := by
  refine ⟨(claim_C7_amended .average [Val.inf]).2.2.2 (by decide), ?_, ?_⟩
  · rw [(claim_C7_amended .count [Val.nan, Val.fin 2, Val.inf, Val.fin 7]).2.1]
    decide
  · rw [(claim_C7_amended .last [Val.fin 3, Val.inf, Val.fin 9, Val.nan]).2.2.1]
    decide

/-! ## Claim C10: NaN writes succeed but are never read back -/

/-- C10 — Writing NaN at a non-zero timestamp succeeds (only infinite
    values are rejected); the slot's timestamp is stored, so the ring
    becomes non-empty and `newest_timestamp` becomes that timestamp; yet no
    read over any range yields a NaN value, so the write's point is never
    yielded. -/
theorem claim_C10 (r : RingBuffer) (col : Nat) (ts : Nat)
    (hlen : r.timestamps.length = r.slotCount) (hn : 0 < r.slotCount) (hts : ts ≠ 0) :
    r.write col Val.nan ts = .ok (r.writeCore col Val.nan ts) ∧
    (r.writeCore col Val.nan ts).isEmpty = false ∧
    (r.writeCore col Val.nan ts).newestTimestamp = some ts ∧
    (∀ s e p, p ∈ (r.writeCore col Val.nan ts).readPoints col s e → p.2.isNaN = false) := by
  have hcur := RingBuffer.writeCore_tsAt_cursor r col Val.nan ts hlen hn
  refine ⟨?_, ?_, ?_, ?_⟩
  · simp [RingBuffer.write, Val.isInfinite, hts]
  · simp [RingBuffer.isEmpty, hcur, hts]
  · simp [RingBuffer.newestTimestamp, RingBuffer.isEmpty, hcur, hts]
  · intro s e p hp
    exact RingBuffer.readPoints_no_nan _ col s e p hp

/-! ## Write sequences: cursor and newest-timestamp behaviour -/

theorem freshRing_tsAt (n m i s : Nat) : (freshRing n m i).tsAt s = 0 := by
  simp only [freshRing, RingBuffer.tsAt, List.getD_eq_getElem?_getD, List.getElem?_replicate]
  split <;> rfl

theorem freshRing_valAt (n m i s c : Nat) : (freshRing n m i).valAt s c = Val.nan := by
  simp only [freshRing, RingBuffer.valAt, List.getD_eq_getElem?_getD, List.getElem?_replicate]
  split
  · simp only [Option.getD_some, List.getElem?_replicate]
    split <;> rfl
  · rfl

theorem RingBuffer.computeSlot_congr {r r' : RingBuffer} (hi : r'.intervalNs = r.intervalNs)
    (hn : r'.slotCount = r.slotCount) (ts : Nat) : r'.computeSlot ts = r.computeSlot ts := by
  unfold RingBuffer.computeSlot
  rw [hi, hn]

theorem RingBuffer.writeCore_length (r : RingBuffer) (col : Nat) (v : Val) (ts : Nat) :
    (r.writeCore col v ts).timestamps.length = r.timestamps.length := by
  rw [RingBuffer.writeCore_timestamps, List.length_set]

/-- Running a list of valid writes succeeds, preserves the ring geometry,
    and leaves the cursor on the slot of the last write with that write's
    timestamp stored there. -/
theorem writeSeq_newest :
    ∀ (ws : List (Nat × Val × Nat)) (r : RingBuffer),
    r.timestamps.length = r.slotCount → 0 < r.slotCount →
    (∀ w ∈ ws, w.2.1.isInfinite = false ∧ w.2.2 ≠ 0) →
    ∃ r', writeSeq r ws = .ok r' ∧
      r'.timestamps.length = r'.slotCount ∧
      r'.slotCount = r.slotCount ∧ r'.intervalNs = r.intervalNs ∧
      r'.maxSeries = r.maxSeries ∧
      (ws = [] → r' = r) ∧
      (∀ wl, ws.getLast? = some wl →
        r'.writeCursor = r'.computeSlot wl.2.2 ∧ r'.tsAt r'.writeCursor = wl.2.2) := by
  intro ws
  induction ws with
  | nil =>
    intro r hlen hn _
    exact ⟨r, rfl, hlen, rfl, rfl, rfl, fun _ => rfl, fun wl h => by cases h⟩
  | cons w rest ih =>
    intro r hlen hn hvalid
    have hv := hvalid w (List.mem_cons_self w rest)
    have hw : r.write w.1 w.2.1 w.2.2 = .ok (r.writeCore w.1 w.2.1 w.2.2) := by
      simp [RingBuffer.write, hv.1, hv.2]
    set r₁ := r.writeCore w.1 w.2.1 w.2.2 with hr₁
    have hlen₁ : r₁.timestamps.length = r₁.slotCount := by
      rw [RingBuffer.writeCore_length, RingBuffer.writeCore_slotCount, hlen]
    have hn₁ : 0 < r₁.slotCount := by rw [RingBuffer.writeCore_slotCount]; exact hn
    obtain ⟨r', hseq, hlen', hsc, hi', hms, hnil, hlast⟩ :=
      ih r₁ hlen₁ hn₁ (fun w' hw' => hvalid w' (List.mem_cons_of_mem w hw'))
    refine ⟨r', ?_, hlen', ?_, ?_, ?_, ?_, ?_⟩
    · show (w :: rest).foldlM (fun r w => r.write w.1 w.2.1 w.2.2) r = .ok r'
      rw [List.foldlM_cons, hw]
      exact hseq
    · rw [hsc, RingBuffer.writeCore_slotCount]
    · rw [hi', RingBuffer.writeCore_intervalNs]
    · rw [hms, RingBuffer.writeCore_maxSeries]
    · intro h
      cases h
    · intro wl hl
      cases rest with
      | nil =>
        cases hl
        rw [hnil rfl]
        refine ⟨?_, RingBuffer.writeCore_tsAt_cursor r w.1 w.2.1 w.2.2 hlen hn⟩
        rw [RingBuffer.writeCore_writeCursor]
        exact (RingBuffer.computeSlot_congr
          (RingBuffer.writeCore_intervalNs r w.1 w.2.1 w.2.2)
          (RingBuffer.writeCore_slotCount r w.1 w.2.1 w.2.2) w.2.2).symm
      | cons w2 rest2 =>
        exact hlast wl (by rw [← hl, List.getLast?_cons_cons])

/-- On a list sorted by `≤`, a left fold of `max` returns the maximum of the
    seed and the last element. -/
theorem foldl_max_of_sorted :
    ∀ (l : List Nat), List.Pairwise (· ≤ ·) l →
    ∀ a : Nat, l.foldl Nat.max a = Nat.max a (l.getLastD a) := by
  intro l
  induction l with
  | nil => intro _ a; simp
  | cons x xs ih =>
    intro hp a
    have hrest := ih hp.tail
    rw [List.foldl_cons, hrest (Nat.max a x), List.getLastD_cons]
    cases xs with
    | nil => simp [Nat.max_assoc]
    | cons y ys =>
      have hxl : x ≤ (y :: ys).getLastD y := by
        have hmem : (y :: ys).getLastD y ∈ y :: ys := by
          rw [List.getLastD_eq_getLast?]
          cases h : (y :: ys).getLast? with
          | none => simp at h
          | some z => simpa using List.mem_of_mem_getLast? (l := y :: ys) (by rw [h]; rfl)
        exact List.rel_of_pairwise_cons hp hmem
      rw [List.getLastD_cons] at hxl
      have h1 : (y :: ys).getLastD (Nat.max a x) = (y :: ys).getLastD x := by
        rw [List.getLastD_cons, List.getLastD_cons]
      rw [h1, List.getLastD_cons]
      simp only [Nat.max_def]
      split_ifs <;> omega

/-! ## The chronological-order invariant of ring states -/

theorem RingBuffer.tsAt_writeCore (r : RingBuffer) (col : Nat) (v : Val) (ts : Nat)
    (hlen : r.timestamps.length = r.slotCount) (hn : 0 < r.slotCount) (s : Nat) :
    (r.writeCore col v ts).tsAt s = if s = r.computeSlot ts then ts else r.tsAt s := by
  by_cases h : s = r.computeSlot ts
  · rw [if_pos h, h]
    unfold RingBuffer.tsAt
    rw [RingBuffer.writeCore_timestamps]
    exact getD_set_self _ _ _ (by rw [hlen]; exact r.computeSlot_lt ts hn)
  · rw [if_neg h]
    exact RingBuffer.writeCore_tsAt_ne r col v ts h

theorem RingBuffer.writeCore_values (r : RingBuffer) (col : Nat) (v : Val) (ts : Nat) :
    (r.writeCore col v ts).values =
      r.values.set (r.computeSlot ts) ((r.values.getD (r.computeSlot ts) []).set col v) := rfl

theorem RingBuffer.valAt_writeCore_ne (r : RingBuffer) (col : Nat) (v : Val) (ts : Nat)
    {s : Nat} (h : s ≠ r.computeSlot ts) (c : Nat) :
    (r.writeCore col v ts).valAt s c = r.valAt s c := by
  unfold RingBuffer.valAt
  rw [RingBuffer.writeCore_values, getD_set_ne _ (fun e => h e.symm)]


theorem ringInv_fresh (n m i : Nat) (hn : 0 < n) (hi : 0 < i) :
    RingInv (freshRing n m i) := by
  refine ⟨hn, hi, by simp [freshRing], hn, ?_, ?_, ?_, ?_, ?_, ?_⟩
  · intro s _ hne
    exact absurd (freshRing_tsAt n m i s) hne
  · intro s _ hne
    exact absurd (freshRing_tsAt n m i s) hne
  · intro _ s _ hne
    exact absurd (freshRing_tsAt n m i s) hne
  · intro _ s s' _ _ hne _ _
    exact absurd (freshRing_tsAt n m i s) hne
  · intro hw
    simp [freshRing] at hw
  · intro s c hv
    exact absurd (freshRing_valAt n m i s c) hv

/-- A single valid write at a timestamp at least as new as the stored
    newest, and within one bucket window of everything stored, preserves
    the invariant. -/
theorem RingInv.write {r : RingBuffer} (hr : RingInv r) (col : Nat) {v : Val} {ts : Nat}
    (hts : ts ≠ 0)
    (hge : r.tsAt r.writeCursor ≤ ts)
    (hspan : ∀ s, s < r.slotCount → r.tsAt s ≠ 0 →
      ts / r.intervalNs < r.tsAt s / r.intervalNs + r.slotCount) :
    RingInv (r.writeCore col v ts) := by
  have hσ : r.computeSlot ts < r.slotCount := r.computeSlot_lt ts hr.hn
  have htsa : ∀ s, (r.writeCore col v ts).tsAt s =
      if s = r.computeSlot ts then ts else r.tsAt s :=
    r.tsAt_writeCore col v ts hr.hlen hr.hn
  have hcur' : (r.writeCore col v ts).writeCursor = r.computeSlot ts :=
    r.writeCore_writeCursor col v ts
  have hslotdef : (ts / r.intervalNs) % r.slotCount = r.computeSlot ts := rfl
  have hwrapped : (r.writeCore col v ts).hasWrapped =
      (r.hasWrapped || decide (r.computeSlot ts < r.writeCursor)) := rfl
  refine ⟨?_, ?_, ?_, ?_, ?_, ?_, ?_, ?_, ?_, ?_⟩
  · rw [RingBuffer.writeCore_slotCount]; exact hr.hn
  · rw [RingBuffer.writeCore_intervalNs]; exact hr.hi
  · rw [RingBuffer.writeCore_length, RingBuffer.writeCore_slotCount]; exact hr.hlen
  · rw [hcur', RingBuffer.writeCore_slotCount]; exact hσ
  · intro s hs hne
    rw [RingBuffer.writeCore_slotCount] at hs ⊢
    rw [RingBuffer.writeCore_intervalNs]
    rw [htsa s] at hne ⊢
    by_cases hc : s = r.computeSlot ts
    · rw [if_pos hc]
      rw [hslotdef, hc]
    · rw [if_neg hc] at hne ⊢
      exact hr.slotOk s hs hne
  · intro s hs hne
    rw [RingBuffer.writeCore_slotCount] at hs
    rw [hcur', htsa s, htsa (r.computeSlot ts), if_pos rfl]
    rw [htsa s] at hne
    by_cases hc : s = r.computeSlot ts
    · rw [if_pos hc]
    · rw [if_neg hc] at hne ⊢
      exact Nat.le_trans (hr.leNewest s hs hne) hge
  · intro hw s hs hne
    rw [hwrapped, Bool.or_eq_false_iff] at hw
    have hnw : r.hasWrapped = false := hw.1
    have hcle : r.writeCursor ≤ r.computeSlot ts :=
      Nat.le_of_not_lt (by simpa using hw.2)
    rw [RingBuffer.writeCore_slotCount] at hs
    rw [hcur']
    rw [htsa s] at hne
    by_cases hc : s = r.computeSlot ts
    · exact hc.le
    · rw [if_neg hc] at hne
      exact Nat.le_trans (hr.noWrapBound hnw s hs hne) hcle
  · intro hw s s' hs hs' hne hne' hlt
    rw [hwrapped, Bool.or_eq_false_iff] at hw
    have hnw : r.hasWrapped = false := hw.1
    have hcle : r.writeCursor ≤ r.computeSlot ts :=
      Nat.le_of_not_lt (by simpa using hw.2)
    rw [RingBuffer.writeCore_slotCount] at hs hs'
    rw [htsa s] at hne ⊢
    rw [htsa s'] at hne' ⊢
    by_cases hc' : s' = r.computeSlot ts
    · rw [if_pos hc'] at hne' ⊢
      have hc : s ≠ r.computeSlot ts := by omega
      rw [if_neg hc] at hne ⊢
      have hle : r.tsAt s ≤ ts := Nat.le_trans (hr.leNewest s hs hne) hge
      rcases Nat.lt_or_ge (r.tsAt s) ts with h | h
      · exact h
      · exfalso
        have heq : r.tsAt s = ts := Nat.le_antisymm hle h
        have := hr.slotOk s hs hne
        rw [heq, hslotdef] at this
        exact hc this.symm
    · rw [if_neg hc'] at hne' ⊢
      by_cases hc : s = r.computeSlot ts
      · exfalso
        have hb := hr.noWrapBound hnw s' hs' hne'
        omega
      · rw [if_neg hc] at hne ⊢
        exact hr.noWrapMono hnw s s' hs hs' hne hne' hlt
  · intro _ s hs hne
    rw [RingBuffer.writeCore_slotCount] at hs ⊢
    rw [RingBuffer.writeCore_intervalNs]
    rw [hcur', htsa (r.computeSlot ts), if_pos rfl]
    rw [htsa s] at hne ⊢
    by_cases hc : s = r.computeSlot ts
    · rw [if_pos hc]
      have := hr.hn
      omega
    · rw [if_neg hc] at hne ⊢
      exact hspan s hs hne
  · intro s c hv
    rw [htsa s]
    by_cases hc : s = r.computeSlot ts
    · rw [if_pos hc]
      exact hts
    · rw [if_neg hc]
      rw [r.valAt_writeCore_ne col v ts hc c] at hv
      exact hr.valNan s c hv

/-- Running valid, chronologically sorted writes that stay within one bucket
    window of each other and of the stored data preserves the invariant. -/
theorem writeSeq_inv :
    ∀ (ws : List (Nat × Val × Nat)) (r : RingBuffer), RingInv r →
    (∀ w ∈ ws, w.2.1.isInfinite = false ∧ w.2.2 ≠ 0) →
    List.Pairwise (fun a b : Nat × Val × Nat => a.2.2 ≤ b.2.2) ws →
    (∀ w ∈ ws, r.tsAt r.writeCursor ≤ w.2.2) →
    (∀ w ∈ ws, ∀ s, s < r.slotCount → r.tsAt s ≠ 0 →
      w.2.2 / r.intervalNs < r.tsAt s / r.intervalNs + r.slotCount) →
    (∀ w ∈ ws, ∀ w' ∈ ws, w.2.2 / r.intervalNs < w'.2.2 / r.intervalNs + r.slotCount) →
    ∃ r', writeSeq r ws = .ok r' ∧ RingInv r' := by
  intro ws
  induction ws with
  | nil =>
    intro r hr _ _ _ _ _
    exact ⟨r, rfl, hr⟩
  | cons w rest ih =>
    intro r hr hvalid hsorted hge hspanF hpairspan
    have hmemw : w ∈ w :: rest := List.mem_cons_self w rest
    have hv := hvalid w hmemw
    have hwrite : r.write w.1 w.2.1 w.2.2 = .ok (r.writeCore w.1 w.2.1 w.2.2) := by
      simp [RingBuffer.write, hv.1, hv.2]
    have hr₁ : RingInv (r.writeCore w.1 w.2.1 w.2.2) :=
      hr.write w.1 hv.2 (hge w hmemw) (hspanF w hmemw)
    have htscur₁ : (r.writeCore w.1 w.2.1 w.2.2).tsAt
        (r.writeCore w.1 w.2.1 w.2.2).writeCursor = w.2.2 :=
      r.writeCore_tsAt_cursor w.1 w.2.1 w.2.2 hr.hlen hr.hn
    have hts₁ : ∀ s, (r.writeCore w.1 w.2.1 w.2.2).tsAt s =
        if s = r.computeSlot w.2.2 then w.2.2 else r.tsAt s :=
      r.tsAt_writeCore w.1 w.2.1 w.2.2 hr.hlen hr.hn
    obtain ⟨r', hseq, hr'⟩ := ih (r.writeCore w.1 w.2.1 w.2.2) hr₁
      (fun w' h => hvalid w' (List.mem_cons_of_mem w h))
      hsorted.tail
      (fun w' h => by rw [htscur₁]; exact List.rel_of_pairwise_cons hsorted h)
      (fun w' h s hs hne => by
        rw [RingBuffer.writeCore_slotCount] at hs
        rw [RingBuffer.writeCore_slotCount, RingBuffer.writeCore_intervalNs]
        rw [hts₁ s] at hne ⊢
        by_cases hcase : s = r.computeSlot w.2.2
        · rw [if_pos hcase]
          exact hpairspan w' (List.mem_cons_of_mem w h) w hmemw
        · rw [if_neg hcase] at hne ⊢
          exact hspanF w' (List.mem_cons_of_mem w h) s hs hne)
      (fun w1 h1 w2 h2 => by
        rw [RingBuffer.writeCore_intervalNs, RingBuffer.writeCore_slotCount]
        exact hpairspan w1 (List.mem_cons_of_mem w h1) w2 (List.mem_cons_of_mem w h2))
    refine ⟨r', ?_, hr'⟩
    show (w :: rest).foldlM (fun r w => r.write w.1 w.2.1 w.2.2) r = .ok r'
    rw [List.foldlM_cons, hwrite]
    exact hseq

/-! ## Chronological order of reads under the invariant -/

theorem pairwise_filterMap_of {α β : Type _} {R : β → β → Prop} {S : α → α → Prop}
    {f : α → Option β} {l : List α} (hl : List.Pairwise S l)
    (h : ∀ a b, S a b → ∀ x, f a = some x → ∀ y, f b = some y → R x y) :
    List.Pairwise R (l.filterMap f) := by
  induction l with
  | nil => simp
  | cons a l ih =>
    rw [List.filterMap_cons]
    cases hl with
    | cons ha hl =>
      cases hfa : f a with
      | none => exact ih hl
      | some x =>
        refine List.Pairwise.cons ?_ (ih hl)
        intro y hy
        obtain ⟨b, hb, hfb⟩ := List.mem_filterMap.mp hy
        exact h a b (ha b hb) x hfa y hfb

/-- Two naturals that agree modulo `n` and lie within `n` of each other are
    equal. -/
theorem eq_of_mod_eq_of_close {a b n : Nat} (hmod : a % n = b % n)
    (h1 : a < b + n) (h2 : b < a + n) : a = b := by
  rcases Nat.le_total a b with h | h
  · have hd : n ∣ b - a := (Nat.modEq_iff_dvd' h).mp hmod
    have hz := Nat.eq_zero_of_dvd_of_lt hd (by omega)
    omega
  · have hd : n ∣ a - b := (Nat.modEq_iff_dvd' h).mp hmod.symm
    have hz := Nat.eq_zero_of_dvd_of_lt hd (by omega)
    omega

/-- In a wrapped ring satisfying the invariant, the bucket of the slot
    visited at position `k` of the read rotation is exactly `n - 1 - k`
    buckets behind the cursor's bucket: the rotation enumerates buckets in
    increasing order. -/
theorem RingInv.wrap_bucket {r : RingBuffer} (hr : RingInv r) (hw : r.hasWrapped = true)
    {k : Nat} (hk : k < r.slotCount)
    (hne : r.tsAt (((r.writeCursor + 1) % r.slotCount + k) % r.slotCount) ≠ 0) :
    r.tsAt r.writeCursor / r.intervalNs =
      r.tsAt (((r.writeCursor + 1) % r.slotCount + k) % r.slotCount) / r.intervalNs
        + (r.slotCount - 1 - k) := by
  have hn := hr.hn
  set n := r.slotCount with hn_def
  set c := r.writeCursor with hc_def
  set s := ((c + 1) % n + k) % n with hs_def
  have hsn : s < n := Nat.mod_lt _ hn
  have hslot : (r.tsAt s / r.intervalNs) % n = s := hr.slotOk s hsn hne
  have hle : r.tsAt s ≤ r.tsAt c := hr.leNewest s hsn hne
  have hnec : r.tsAt c ≠ 0 := by
    intro h0
    rw [h0] at hle
    omega
  have hslotc : (r.tsAt c / r.intervalNs) % n = c := hr.slotOk c hr.hcur hnec
  have hspan := hr.wrapSpan hw s hsn hne
  set bs := r.tsAt s / r.intervalNs with hbs_def
  set bc := r.tsAt c / r.intervalNs with hbc_def
  have hble : bs ≤ bc := Nat.div_le_div_right hle
  have hcong : (bs + (n - 1 - k)) % n = bc % n := by
    have e1 : (bs + (n - 1 - k)) % n = (s + (n - 1 - k)) % n := by
      conv_lhs => rw [← Nat.mod_add_mod, hslot]
    have e2 : (s + (n - 1 - k)) % n = ((c + 1) % n + k + (n - 1 - k)) % n := by
      rw [hs_def, Nat.mod_add_mod]
    have e3 : (c + 1) % n + k + (n - 1 - k) = (c + 1) % n + (n - 1) := by omega
    have e4 : ((c + 1) % n + (n - 1)) % n = (c + 1 + (n - 1)) % n := Nat.mod_add_mod _ _ _
    have e5 : (c + 1 + (n - 1)) % n = (c + n) % n := by
      congr 1
      omega
    have e6 : (c + n) % n = c % n := Nat.add_mod_right c n
    have e7 : c % n = c := Nat.mod_eq_of_lt hr.hcur
    rw [e1, e2, e3, e4, e5, e6, e7, hslotc]
  exact eq_of_mod_eq_of_close hcong.symm (by omega) (by omega)

/-- Under the invariant, every read yields its points in strictly
    increasing timestamp order (claim C2's core property). -/
theorem RingInv.readPoints_sorted {r : RingBuffer} (hr : RingInv r)
    (col startNs endNs : Nat) :
    List.Pairwise (fun p q : Nat × Val => p.1 < q.1) (r.readPoints col startNs endNs) := by
  have hemit : ∀ s p, (if startNs ≤ r.tsAt s ∧ r.tsAt s < endNs ∧ (r.valAt s col).isNaN = false
        then some (r.tsAt s, r.valAt s col) else none) = some p →
      p.1 = r.tsAt s ∧ r.tsAt s ≠ 0 := by
    intro s p hp
    split at hp
    · rename_i hcond
      cases hp
      refine ⟨rfl, hr.valNan s col ?_⟩
      intro hvnan
      rw [hvnan] at hcond
      exact absurd hcond.2.2 (by simp [Val.isNaN])
    · cases hp
  unfold RingBuffer.readPoints
  unfold RingBuffer.visitOrder
  by_cases hem : r.isEmpty
  · simp [hem]
  · rw [if_neg hem]
    cases hw : r.hasWrapped with
    | false =>
      rw [if_neg (by simp [hw])]
      have hpw : List.Pairwise
          (fun a b => a < b ∧ a < r.slotCount ∧ b < r.slotCount)
          (List.range (r.writeCursor + 1)) := by
        refine List.Pairwise.imp_of_mem ?_ (List.pairwise_lt_range _)
        intro a b ha hb hlt
        have ha' := List.mem_range.mp ha
        have hb' := List.mem_range.mp hb
        have := hr.hcur
        exact ⟨hlt, by omega, by omega⟩
      refine pairwise_filterMap_of hpw ?_
      intro a b hS x hx y hy
      obtain ⟨hax, hane⟩ := hemit a x hx
      obtain ⟨hby, hbne⟩ := hemit b y hy
      rw [hax, hby]
      exact hr.noWrapMono hw a b hS.2.1 hS.2.2 hane hbne hS.1
    | true =>
      rw [if_pos (by simp [hw])]
      rw [List.filterMap_map]
      have hpw : List.Pairwise
          (fun a b => a < b ∧ a < r.slotCount ∧ b < r.slotCount)
          (List.range r.slotCount) := by
        refine List.Pairwise.imp_of_mem ?_ (List.pairwise_lt_range _)
        intro a b ha hb hlt
        exact ⟨hlt, List.mem_range.mp ha, List.mem_range.mp hb⟩
      refine pairwise_filterMap_of hpw ?_
      intro k k' hS x hx y hy
      obtain ⟨hkx, hkne⟩ := hemit _ x hx
      obtain ⟨hky, hkne'⟩ := hemit _ y hy
      have hb1 := hr.wrap_bucket hw hS.2.1 hkne
      have hb2 := hr.wrap_bucket hw hS.2.2 hkne'
      rw [hkx, hky]
      by_contra hcon
      have hge' : r.tsAt (((r.writeCursor + 1) % r.slotCount + k') % r.slotCount) ≤
          r.tsAt (((r.writeCursor + 1) % r.slotCount + k) % r.slotCount) :=
        Nat.le_of_not_lt hcon
      have hdivle : r.tsAt (((r.writeCursor + 1) % r.slotCount + k') % r.slotCount) /
            r.intervalNs ≤
          r.tsAt (((r.writeCursor + 1) % r.slotCount + k) % r.slotCount) / r.intervalNs :=
        Nat.div_le_div_right hge'
      have hklt := hS.1
      have hkn := hS.2.2
      omega

/-! ## Claim C2: chronological read order -/

/-- C2 counterexample — valid writes can leave the ring in a state whose
    full-range read is *not* chronologically ordered.  First input: in-order
    writes at timestamps 1, 3, 6 on a 4-slot, 1 ns ring (the write at 6
    wraps past un-overwritten stale data), read yields timestamps
    `[3, 1, 6]`.  Second input: out-of-order writes at timestamps 5 then 2
    on a 10-slot ring yield `[5, 2]`. -/
theorem claim_C2_counterexample :
    ((writeSeq (freshRing 4 1 1)
        [(0, Val.fin 1, 1), (0, Val.fin 2, 3), (0, Val.fin 3, 6)]).toOption.map
        (fun r => (r.readPoints 0 0 (2 ^ 64 - 1)).map Prod.fst) = some [3, 1, 6]) ∧
    ¬ List.Pairwise (fun a b : Nat => a < b) [3, 1, 6] ∧
    ((writeSeq (freshRing 10 1 1)
        [(0, Val.fin 1, 5), (0, Val.fin 2, 2)]).toOption.map
        (fun r => (r.readPoints 0 0 (2 ^ 64 - 1)).map Prod.fst) = some [5, 2]) ∧
    ¬ List.Pairwise (fun a b : Nat => a < b) [5, 2] :=
  ⟨by decide, by decide, by decide, by decide⟩

/-- C2 (amended) — For every sequence of valid writes in non-decreasing
    timestamp order whose timestamps all lie within one retention window of
    buckets (any two write buckets `ts / interval` differ by less than
    `slot_count`), `read(column, 0, u64::MAX)` returns the stored data
    points in strictly increasing timestamp order, and no returned value is
    NaN. -/
theorem claim_C2_amended (n m i : Nat) (ws : List (Nat × Val × Nat)) (r : RingBuffer)
    (hn : 0 < n) (hi : 0 < i)
    (hvalid : ∀ w ∈ ws, w.2.1.isInfinite = false ∧ w.2.2 ≠ 0)
    (hsorted : List.Pairwise (fun a b : Nat × Val × Nat => a.2.2 ≤ b.2.2) ws)
    (hspan : ∀ w ∈ ws, ∀ w' ∈ ws, w.2.2 / i < w'.2.2 / i + n)
    (hws : writeSeq (freshRing n m i) ws = .ok r)
    (col : Nat) (pts : List (Nat × Val))
    (hread : r.read col 0 (2 ^ 64 - 1) = .ok pts) :
    List.Pairwise (fun p q : Nat × Val => p.1 < q.1) pts ∧
    ∀ p ∈ pts, p.2.isNaN = false := by
  obtain ⟨r', hseq, hr'⟩ := writeSeq_inv ws (freshRing n m i) (ringInv_fresh n m i hn hi)
    hvalid hsorted
    (fun w _ => by rw [freshRing_tsAt]; exact Nat.zero_le _)
    (fun w _ s _ hne => absurd (freshRing_tsAt n m i s) hne)
    (fun w h w' h' => hspan w h w' h')
  rw [hws] at hseq
  cases hseq
  rw [RingBuffer.read, if_neg (by norm_num)] at hread
  have hpts : r.readPoints col 0 (2 ^ 64 - 1) = pts := by
    injection hread
  rw [← hpts]
  exact ⟨hr'.readPoints_sorted col 0 (2 ^ 64 - 1), RingBuffer.readPoints_no_nan r col _ _⟩

/-- Witness for C2 (amended): three in-order writes on a 3-slot ring (the
    third wraps), read back in order 1, 2, 3. -/
theorem claim_C2_witness :
    List.Pairwise (fun p q : Nat × Val => p.1 < q.1)
      [(1, Val.fin 1), (2, Val.fin 2), (3, Val.fin 3)] ∧
    ∀ p ∈ [((1 : Nat), Val.fin 1), (2, Val.fin 2), (3, Val.fin 3)], p.2.isNaN = false :=
  claim_C2_amended 3 1 1 [(0, Val.fin 1, 1), (0, Val.fin 2, 2), (0, Val.fin 3, 3)]
    (RingBuffer.mk 3 1 1 [3, 1, 2] [[Val.fin 3], [Val.fin 1], [Val.fin 2]] 0 true)
    (by decide) (by decide) (by decide) (by decide) (by decide) (by decide) 0
    [(1, Val.fin 1), (2, Val.fin 2), (3, Val.fin 3)] (by decide)

/-! ## Claim C1: newest / oldest timestamp tracking -/

/-- C1 counterexample — with valid but out-of-order writes (timestamp 5 then
    timestamp 2 on a 10-slot, 1 ns-interval ring) the cursor follows the
    *last* write, so `newest_timestamp` is 2 while the maximum timestamp
    written so far is 5.  The same state is also marked wrapped with an
    empty slot right after the cursor, where `oldest_timestamp` returns
    `None` rather than the (zero) stored timestamp. -/
theorem claim_C1_counterexample :
    ((writeSeq (freshRing 10 1 1) [(0, Val.fin 1, 5), (0, Val.fin 2, 2)]).toOption.map
        (fun r => (r.newestTimestamp, r.hasWrapped, r.oldestTimestamp,
          r.tsAt ((r.writeCursor + 1) % 10))) =
      some (some 2, true, none, 0)) ∧
    [(5 : Nat), 2].foldl Nat.max 0 = 5 ∧
    some 2 ≠ some (5 : Nat) :=
  ⟨by decide, by decide, by decide⟩

/-- C1 (amended) — For every sequence of valid writes *in non-decreasing
    timestamp order* to a fresh ring buffer, `ring.newest_timestamp` equals
    the maximum timestamp written so far, and once the ring has wrapped,
    `ring.oldest_timestamp` equals the timestamp stored at slot
    `(cursor+1) % slot_count` whenever that slot is non-empty (and `None`
    when it is empty). -/
theorem claim_C1_amended (n m i : Nat) (ws : List (Nat × Val × Nat)) (r : RingBuffer)
    (hn : 0 < n)
    (hvalid : ∀ w ∈ ws, w.2.1.isInfinite = false ∧ w.2.2 ≠ 0)
    (hsorted : List.Pairwise (fun a b : Nat × Val × Nat => a.2.2 ≤ b.2.2) ws)
    (hws : writeSeq (freshRing n m i) ws = .ok r)
    (hne : ws ≠ []) :
    r.newestTimestamp = some ((ws.map (fun w => w.2.2)).foldl Nat.max 0) ∧
    (r.hasWrapped = true → r.tsAt ((r.writeCursor + 1) % n) ≠ 0 →
      r.oldestTimestamp = some (r.tsAt ((r.writeCursor + 1) % n))) := by
  obtain ⟨r', hseq, hlen', hsc, hi', hms, hnil, hlast⟩ :=
    writeSeq_newest ws (freshRing n m i) (by simp [freshRing]) hn hvalid
  rw [hws] at hseq
  cases hseq
  obtain ⟨wl, hwl⟩ : ∃ wl, ws.getLast? = some wl := by
    cases h : ws.getLast? with
    | none => exact absurd (List.getLast?_eq_none_iff.mp h) hne
    | some z => exact ⟨z, rfl⟩
  obtain ⟨hcur, htscur⟩ := hlast wl hwl
  have hwlmem : wl ∈ ws := List.mem_of_mem_getLast? (by rw [hwl]; rfl)
  have hwlne : wl.2.2 ≠ 0 := (hvalid wl hwlmem).2
  have hmax : (ws.map (fun w => w.2.2)).foldl Nat.max 0 = wl.2.2 := by
    rw [foldl_max_of_sorted _ (List.pairwise_map.mpr hsorted) 0]
    have : (ws.map (fun w => w.2.2)).getLastD 0 = wl.2.2 := by
      rw [List.getLastD_eq_getLast?, List.getLast?_map, hwl]
      rfl
    rw [this]
    exact Nat.max_eq_right (Nat.zero_le _)
  have hne0 : r.tsAt r.writeCursor ≠ 0 := by rw [htscur]; exact hwlne
  constructor
  · rw [hmax]
    simp [RingBuffer.newestTimestamp, RingBuffer.isEmpty, hne0, htscur, hwlne]
  · intro hwrap hts
    have hsc' : r.slotCount = n := by simpa [freshRing] using hsc
    rw [← hsc'] at hts ⊢
    simp [RingBuffer.oldestTimestamp, RingBuffer.isEmpty, hne0, hwrap, hts]

/-- Witness for C1 (amended): four in-order writes on a 3-slot ring wrap it;
    the newest timestamp is the maximum written and the oldest is the slot
    after the cursor. -/
theorem claim_C1_witness :
    (RingBuffer.mk 3 1 1 [3, 4, 2] [[Val.fin 3], [Val.fin 4], [Val.fin 2]] 1
        true).newestTimestamp =
      some (([(0, Val.fin 1, 1), (0, Val.fin 2, 2), (0, Val.fin 3, 3),
        (0, Val.fin 4, 4)].map (fun w : Nat × Val × Nat => w.2.2)).foldl Nat.max 0) ∧
    (RingBuffer.mk 3 1 1 [3, 4, 2] [[Val.fin 3], [Val.fin 4], [Val.fin 2]] 1
        true).oldestTimestamp =
      some ((RingBuffer.mk 3 1 1 [3, 4, 2] [[Val.fin 3], [Val.fin 4], [Val.fin 2]] 1
        true).tsAt (((RingBuffer.mk 3 1 1 [3, 4, 2] [[Val.fin 3], [Val.fin 4], [Val.fin 2]] 1
          true).writeCursor + 1) % 3)) := by
  have h := claim_C1_amended 3 1 1
    [(0, Val.fin 1, 1), (0, Val.fin 2, 2), (0, Val.fin 3, 3), (0, Val.fin 4, 4)]
    (RingBuffer.mk 3 1 1 [3, 4, 2] [[Val.fin 3], [Val.fin 4], [Val.fin 2]] 1 true)
    (by decide) (by decide) (by decide) (by decide) (by decide)
  exact ⟨h.1, h.2 (by decide) (by decide)⟩

/-! ## Claim C4: drain progressivity -/

theorem RingBuffer.readPoints_mem_range (r : RingBuffer) (col s e : Nat) :
    ∀ p ∈ r.readPoints col s e, s ≤ p.1 ∧ p.1 < e := by
  intro p hp
  simp only [RingBuffer.readPoints, List.mem_filterMap] at hp
  obtain ⟨slot, -, hif⟩ := hp
  split at hif
  · rename_i hcond
    cases hif
    exact ⟨hcond.1, hcond.2.1⟩
  · cases hif

/-- In a list with strictly increasing timestamps, the last element carries
    the maximal timestamp. -/
theorem pairwise_getLast_max {l : List (Nat × Val)} :
    List.Pairwise (fun p q : Nat × Val => p.1 < q.1) l →
    ∀ {p : Nat × Val}, l.getLast? = some p → ∀ q ∈ l, q.1 ≤ p.1 := by
  induction l with
  | nil =>
    intro _ p hl
    cases hl
  | cons a l ih =>
    intro hp p hl q hq
    cases l with
    | nil =>
      rw [List.getLast?_singleton] at hl
      cases hl
      rcases List.mem_singleton.mp hq with rfl
      exact Nat.le_refl _
    | cons b l' =>
      rw [List.getLast?_cons_cons] at hl
      have hpmem : p ∈ b :: l' := List.mem_of_mem_getLast? (by rw [hl]; rfl)
      rcases List.mem_cons.mp hq with rfl | hq'
      · exact Nat.le_of_lt (List.rel_of_pairwise_cons hp hpmem)
      · exact ih hp.tail hl q hq'

theorem RingBuffer.read_ok (r : RingBuffer) (col s e : Nat) (h : s < e) :
    r.read col s e = .ok (r.readPoints col s e) := by
  rw [RingBuffer.read, if_neg (Nat.not_le.mpr h)]

theorem drainSeries_none_left {ring : RingBuffer} (h : ring.oldestTimestamp = none)
    (s t c : Nat) (ec : ExportCursor) : drainSeries ring s t c ec = .ok ([], ec) := by
  unfold drainSeries
  rw [h]

theorem drainSeries_none_right {ring : RingBuffer} (h : ring.newestTimestamp = none)
    (s t c : Nat) (ec : ExportCursor) : drainSeries ring s t c ec = .ok ([], ec) := by
  unfold drainSeries
  rw [h]
  cases ring.oldestTimestamp <;> rfl

theorem drainSeries_some {ring : RingBuffer} {o nw : Nat} (ho : ring.oldestTimestamp = some o)
    (hn : ring.newestTimestamp = some nw) (s t c : Nat) (ec : ExportCursor) :
    drainSeries ring s t c ec =
      (if (match ec.get (s, t, c) with | some ts => ts + 1 | none => o) > nw
       then .ok ([], ec)
       else drainSeriesRead ring (s, t, c) c
         (match ec.get (s, t, c) with | some ts => ts + 1 | none => o) nw ec) := by
  unfold drainSeries
  rw [ho, hn]

theorem drainSeriesRead_none {ring : RingBuffer} {col start newestTs : Nat}
    {pts : List (Nat × Val)} (hread : ring.read col start (newestTs + 1) = .ok pts)
    (hlast : pts.getLast? = none) (key : Nat × Nat × Nat) (cursor : ExportCursor) :
    drainSeriesRead ring key col start newestTs cursor = .ok (pts, cursor) := by
  simp only [drainSeriesRead, hread, hlast]

theorem drainSeriesRead_some {ring : RingBuffer} {col start newestTs : Nat}
    {pts : List (Nat × Val)} {p : Nat × Val}
    (hread : ring.read col start (newestTs + 1) = .ok pts)
    (hlast : pts.getLast? = some p) (key : Nat × Nat × Nat) (cursor : ExportCursor) :
    drainSeriesRead ring key col start newestTs cursor =
      .ok (pts, cursor.update key p.1) := by
  simp only [drainSeriesRead, hread, hlast]

/-- The behaviour of one `drain_series` call under the ring invariant: the
    batch is strictly sorted by timestamp, the cursor changes only at this
    series' key, and a rerun against any cursor agreeing on that key drains
    nothing and leaves the cursor untouched. -/
theorem drainSeries_spec {ring : RingBuffer} (hr : RingInv ring) (s t c : Nat)
    {ec ec' : ExportCursor} {B : List (Nat × Val)}
    (h : drainSeries ring s t c ec = .ok (B, ec')) :
    List.Pairwise (fun p q : Nat × Val => p.1 < q.1) B ∧
    (∀ key, key ≠ (s, t, c) → ec'.get key = ec.get key) ∧
    (∀ ec'' : ExportCursor, ec''.get (s, t, c) = ec'.get (s, t, c) →
      drainSeries ring s t c ec'' = .ok ([], ec'')) := by
  cases hold : ring.oldestTimestamp with
  | none =>
    rw [drainSeries_none_left hold s t c ec, Except.ok.injEq, Prod.mk.injEq] at h
    obtain ⟨hB, hec⟩ := h
    subst hB
    subst hec
    exact ⟨List.Pairwise.nil, fun _ _ => rfl,
      fun ec'' _ => drainSeries_none_left hold s t c ec''⟩
  | some o =>
    cases hnew : ring.newestTimestamp with
    | none =>
      rw [drainSeries_none_right hnew s t c ec, Except.ok.injEq, Prod.mk.injEq] at h
      obtain ⟨hB, hec⟩ := h
      subst hB
      subst hec
      exact ⟨List.Pairwise.nil, fun _ _ => rfl,
        fun ec'' _ => drainSeries_none_right hnew s t c ec''⟩
    | some nw =>
      rw [drainSeries_some hold hnew s t c ec] at h
      by_cases hgt : (match ec.get (s, t, c) with | some ts => ts + 1 | none => o) > nw
      · rw [if_pos hgt, Except.ok.injEq, Prod.mk.injEq] at h
        obtain ⟨hB, hec⟩ := h
        subst hB
        subst hec
        refine ⟨List.Pairwise.nil, fun _ _ => rfl, ?_⟩
        intro ec'' hc
        rw [drainSeries_some hold hnew s t c ec'', hc, if_pos hgt]
      · rw [if_neg hgt] at h
        have hle : (match ec.get (s, t, c) with | some ts => ts + 1 | none => o) ≤ nw :=
          Nat.le_of_not_lt hgt
        have hread := ring.read_ok c
          (match ec.get (s, t, c) with | some ts => ts + 1 | none => o) (nw + 1)
          (by omega)
        cases hlastq : (ring.readPoints c
            (match ec.get (s, t, c) with | some ts => ts + 1 | none => o) (nw + 1)).getLast? with
        | none =>
          rw [drainSeriesRead_none hread hlastq (s, t, c) ec,
            Except.ok.injEq, Prod.mk.injEq] at h
          obtain ⟨hB, hec⟩ := h
          subst hB
          subst hec
          have hnil := List.getLast?_eq_none_iff.mp hlastq
          refine ⟨hr.readPoints_sorted _ _ _, fun _ _ => rfl, ?_⟩
          intro ec'' hc
          rw [drainSeries_some hold hnew s t c ec'', hc, if_neg hgt,
            drainSeriesRead_none hread hlastq (s, t, c) ec'', hnil]
        | some p =>
          rw [drainSeriesRead_some hread hlastq (s, t, c) ec,
            Except.ok.injEq, Prod.mk.injEq] at h
          obtain ⟨hB, hec⟩ := h
          subst hB
          subst hec
          have hpmem := List.mem_of_mem_getLast? (l :=
            ring.readPoints c (match ec.get (s, t, c) with | some ts => ts + 1 | none => o)
              (nw + 1)) (by rw [hlastq]; rfl)
          obtain ⟨hplo, hphi⟩ := ring.readPoints_mem_range c _ _ p hpmem
          have hsorted := hr.readPoints_sorted c
            (match ec.get (s, t, c) with | some ts => ts + 1 | none => o) (nw + 1)
          refine ⟨hsorted, ?_, ?_⟩
          · intro key hkey
            exact lookupA_updateA_ne _ hkey _
          · intro ec'' hc
            have hget'' : ec''.get (s, t, c) = some p.1 := by
              rw [hc]
              exact lookupA_updateA_self _ _ _
            rw [drainSeries_some hold hnew s t c ec'', hget'']
            by_cases hpnw : p.1 + 1 > nw
            · rw [if_pos hpnw]
            · rw [if_neg hpnw]
              have hread2 := ring.read_ok c (p.1 + 1) (nw + 1) (by omega)
              have hempty : ring.readPoints c (p.1 + 1) (nw + 1) = [] := by
                rw [List.eq_nil_iff_forall_not_mem]
                intro q hq
                have hqlo := (ring.readPoints_mem_range c _ _ q hq).1
                have hqmem : q ∈ ring.readPoints c
                    (match ec.get (s, t, c) with | some ts => ts + 1 | none => o) (nw + 1) :=
                  ring.readPoints_mono c (by omega) q hq
                have := pairwise_getLast_max hsorted hlastq q hqmem
                omega
              have hlast2 : (ring.readPoints c (p.1 + 1) (nw + 1)).getLast? = none := by
                rw [hempty]
                rfl
              rw [drainSeriesRead_none hread2 hlast2 (s, t, c) ec'', hempty]

theorem drainTier_cons_error {rings : List (List RingBuffer)} {s t : Nat}
    {hd : SeriesHandle} (rest : List SeriesHandle) {ec : ExportCursor} {e : Err}
    (hs : hd.schema_index = s)
    (hds : drainSeries ((rings.getD s []).getD t (freshRing 0 0 0)) s t hd.column ec =
      .error e) :
    drainTier rings s t (hd :: rest) ec = .error e := by
  unfold drainTier
  rw [if_neg (not_not.mpr hs), hds]

theorem drainTier_cons_restError {rings : List (List RingBuffer)} {s t : Nat}
    {hd : SeriesHandle} {rest : List SeriesHandle} {ec : ExportCursor}
    {points : List (Nat × Val)} {c' : ExportCursor} {e : Err}
    (hs : hd.schema_index = s)
    (hds : drainSeries ((rings.getD s []).getD t (freshRing 0 0 0)) s t hd.column ec =
      .ok (points, c'))
    (hrest : drainTier rings s t rest c' = .error e) :
    drainTier rings s t (hd :: rest) ec = .error e := by
  unfold drainTier
  rw [if_neg (not_not.mpr hs), hds]
  show (match drainTier rings s t rest c' with
    | .error e => (.error e : Except Err (List SeriesExport × ExportCursor))
    | .ok (exps, c'') =>
      .ok ((if points.isEmpty then exps else ⟨hd, points⟩ :: exps), c'')) = _
  rw [hrest]

theorem drainTier_cons_ok {rings : List (List RingBuffer)} {s t : Nat}
    {hd : SeriesHandle} {rest : List SeriesHandle} {ec : ExportCursor}
    {points : List (Nat × Val)} {c' : ExportCursor} {exps : List SeriesExport}
    {c'' : ExportCursor}
    (hs : hd.schema_index = s)
    (hds : drainSeries ((rings.getD s []).getD t (freshRing 0 0 0)) s t hd.column ec =
      .ok (points, c'))
    (hrest : drainTier rings s t rest c' = .ok (exps, c'')) :
    drainTier rings s t (hd :: rest) ec =
      .ok ((if points.isEmpty then exps else ⟨hd, points⟩ :: exps), c'') := by
  unfold drainTier
  rw [if_neg (not_not.mpr hs), hds]
  show (match drainTier rings s t rest c' with
    | .error e => (.error e : Except Err (List SeriesExport × ExportCursor))
    | .ok (exps, c'') =>
      .ok ((if points.isEmpty then exps else ⟨hd, points⟩ :: exps), c'')) = _
  rw [hrest]

/-- A tier drain over handles that are all already drained at the current
    cursor returns no batches and leaves the cursor untouched. -/
theorem drainTier_of_drained (rings : List (List RingBuffer)) (s t : Nat) :
    ∀ (handles : List SeriesHandle) (ec : ExportCursor),
    (∀ h ∈ handles, h.schema_index = s →
      drainSeries ((rings.getD s []).getD t (freshRing 0 0 0)) s t h.column ec =
        .ok ([], ec)) →
    drainTier rings s t handles ec = .ok ([], ec) := by
  intro handles
  induction handles with
  | nil =>
    intro ec _
    rfl
  | cons h rest ih =>
    intro ec hdr
    by_cases hs : h.schema_index ≠ s
    · unfold drainTier
      rw [if_pos hs]
      exact ih ec (fun h' hm => hdr h' (List.mem_cons_of_mem h hm))
    · rw [not_ne_iff] at hs
      rw [drainTier_cons_ok hs (hdr h (List.mem_cons_self h rest) hs)
        (ih ec (fun h' hm => hdr h' (List.mem_cons_of_mem h hm)))]
      rfl

/-- After one `drain_tier` call: the cursor changed only at keys of the
    drained handles; every drained handle is fully drained at the resulting
    cursor; and every returned batch is strictly sorted by timestamp. -/
theorem drainTier_post {rings : List (List RingBuffer)} {s t : Nat}
    (hr : RingInv ((rings.getD s []).getD t (freshRing 0 0 0))) :
    ∀ (handles : List SeriesHandle) (ec : ExportCursor) (E : List SeriesExport)
      (ec₁ : ExportCursor),
    drainTier rings s t handles ec = .ok (E, ec₁) →
    (∀ key, ec₁.get key = ec.get key ∨
      ∃ h ∈ handles, h.schema_index = s ∧ key = (s, t, h.column)) ∧
    (∀ h ∈ handles, h.schema_index = s →
      drainSeries ((rings.getD s []).getD t (freshRing 0 0 0)) s t h.column ec₁ =
        .ok ([], ec₁)) ∧
    (∀ ex ∈ E, List.Pairwise (fun p q : Nat × Val => p.1 < q.1) ex.points) := by
  intro handles
  induction handles with
  | nil =>
    intro ec E ec₁ hdt
    unfold drainTier at hdt
    rw [Except.ok.injEq, Prod.mk.injEq] at hdt
    obtain ⟨hE, hec⟩ := hdt
    subst hE
    subst hec
    exact ⟨fun _ => Or.inl rfl, fun h hm => absurd hm (List.not_mem_nil h),
      fun ex hx => absurd hx (List.not_mem_nil ex)⟩
  | cons hd rest ih =>
    intro ec E ec₁ hdt
    by_cases hs : hd.schema_index ≠ s
    · unfold drainTier at hdt
      rw [if_pos hs] at hdt
      obtain ⟨hframe, hdr, hex⟩ := ih ec E ec₁ hdt
      refine ⟨fun key => (hframe key).imp id
        (fun ⟨h', hm, hp⟩ => ⟨h', List.mem_cons_of_mem hd hm, hp⟩), ?_, hex⟩
      intro h' hm hsc
      rcases List.mem_cons.mp hm with rfl | hm'
      · exact absurd hsc hs
      · exact hdr h' hm' hsc
    · rw [not_ne_iff] at hs
      cases hds : drainSeries ((rings.getD s []).getD t (freshRing 0 0 0)) s t hd.column ec with
      | error e =>
        rw [drainTier_cons_error rest hs hds] at hdt
        exact Except.noConfusion hdt
      | ok pc =>
        obtain ⟨points, c'⟩ := pc
        cases hdt2 : drainTier rings s t rest c' with
        | error e =>
          rw [drainTier_cons_restError hs hds hdt2] at hdt
          exact Except.noConfusion hdt
        | ok ec2 =>
          obtain ⟨exps, c''⟩ := ec2
          rw [drainTier_cons_ok hs hds hdt2] at hdt
          rw [Except.ok.injEq, Prod.mk.injEq] at hdt
          obtain ⟨hE, hec⟩ := hdt
          subst hE
          subst hec
          obtain ⟨hsorted, hfr1, hrerun⟩ := drainSeries_spec hr s t hd.column hds
          obtain ⟨hframe, hdr, hex⟩ := ih c' exps c'' hdt2
          have hkeyhd : ∀ key, key = (s, t, hd.column) ∨ ExportCursor.get c'' key = ec.get key ∨
              ∃ h' ∈ rest, h'.schema_index = s ∧ key = (s, t, h'.column) := by
            intro key
            by_cases hk : key = (s, t, hd.column)
            · exact Or.inl hk
            · rcases hframe key with heq | hex'
              · exact Or.inr (Or.inl (heq.trans (hfr1 key hk)))
              · exact Or.inr (Or.inr hex')
          refine ⟨?_, ?_, ?_⟩
          · intro key
            rcases hkeyhd key with hk | heq | hex'
            · exact Or.inr ⟨hd, List.mem_cons_self hd rest, hs, hk⟩
            · exact Or.inl heq
            · exact Or.inr (hex'.imp (fun h' ⟨hm, hp⟩ =>
                ⟨List.mem_cons_of_mem hd hm, hp⟩))
          · intro h' hm hsc
            rcases List.mem_cons.mp hm with rfl | hm'
            · rcases hframe (s, t, h'.column) with heq | hex'
              · exact hrerun c'' heq
              · obtain ⟨h2, hm2, hsc2, hkey2⟩ := hex'
                have hcol : h2.column = h'.column := by
                  have := congrArg (fun k : Nat × Nat × Nat => k.2.2) hkey2
                  simpa using this.symm
                rw [← hcol]
                exact hdr h2 hm2 hsc2
            · exact hdr h' hm' hsc
          · intro ex hx
            by_cases hpe : points.isEmpty
            · rw [if_pos hpe] at hx
              exact hex ex hx
            · rw [if_neg hpe] at hx
              rcases List.mem_cons.mp hx with rfl | hx'
              · exact hsorted
              · exact hex ex hx'

/-- C4 counterexample — a ring reachable by valid writes on which drain
    returns the same point twice.  Writes at timestamps 19, 12, 14 (column
    0) and 23 (column 1) on a 6-slot ring leave stale out-of-order data; the
    first drain of column 0 yields timestamps 12, 19, 14 and advances the
    cursor to the *last yielded* timestamp 14, so a second drain re-yields
    the point `(19, 1.0)`. -/
theorem claim_C4_counterexample :
    writeSeq (freshRing 6 2 1)
        [(0, Val.fin 1, 19), (0, Val.fin 2, 12), (0, Val.fin 3, 14), (1, Val.fin 4, 23)] =
      .ok (RingBuffer.mk 6 2 1 [12, 19, 14, 0, 0, 23]
        [[Val.fin 2, Val.nan], [Val.fin 1, Val.nan], [Val.fin 3, Val.nan],
          [Val.nan, Val.nan], [Val.nan, Val.nan], [Val.nan, Val.fin 4]] 5 true) ∧
    drainSeries (RingBuffer.mk 6 2 1 [12, 19, 14, 0, 0, 23]
        [[Val.fin 2, Val.nan], [Val.fin 1, Val.nan], [Val.fin 3, Val.nan],
          [Val.nan, Val.nan], [Val.nan, Val.nan], [Val.nan, Val.fin 4]] 5 true)
        0 0 0 (ExportCursor.mk []) =
      .ok ([(12, Val.fin 2), (19, Val.fin 1), (14, Val.fin 3)],
        ExportCursor.mk [((0, 0, 0), 14)]) ∧
    drainSeries (RingBuffer.mk 6 2 1 [12, 19, 14, 0, 0, 23]
        [[Val.fin 2, Val.nan], [Val.fin 1, Val.nan], [Val.fin 3, Val.nan],
          [Val.nan, Val.nan], [Val.nan, Val.nan], [Val.nan, Val.fin 4]] 5 true)
        0 0 0 (ExportCursor.mk [((0, 0, 0), 14)]) =
      .ok ([(19, Val.fin 1)], ExportCursor.mk [((0, 0, 0), 19)]) ∧
    (19, Val.fin 1) ∈ [(12, Val.fin 2), (19, Val.fin 1), (14, Val.fin 3)] ∧
    (19, Val.fin 1) ∈ [(19, Val.fin 1)] :=
  ⟨by decide, by decide, by decide, by decide, by decide⟩

/-- C4 (amended) — For rings reached by valid writes in non-decreasing
    timestamp order within one retention window of buckets (so that reads
    are chronologically ordered), and for every export cursor, drain is
    progressive: a second drain with no intervening writes returns no
    batches and does not move the cursor, the union of the two drains'
    batches is the single drain, and within every batch each `(timestamp,
    value)` point appears exactly once (strictly increasing timestamps). -/
theorem claim_C4_amended (n m i : Nat) (ws : List (Nat × Val × Nat))
    (rings : List (List RingBuffer)) (s t : Nat)
    (hn : 0 < n) (hi : 0 < i)
    (hvalid : ∀ w ∈ ws, w.2.1.isInfinite = false ∧ w.2.2 ≠ 0)
    (hsorted : List.Pairwise (fun a b : Nat × Val × Nat => a.2.2 ≤ b.2.2) ws)
    (hspan : ∀ w ∈ ws, ∀ w' ∈ ws, w.2.2 / i < w'.2.2 / i + n)
    (hws : writeSeq (freshRing n m i) ws =
      .ok ((rings.getD s []).getD t (freshRing 0 0 0)))
    (handles : List SeriesHandle) (ec ec₁ ec₂ : ExportCursor)
    (E₁ E₂ : List SeriesExport)
    (h1 : drainTier rings s t handles ec = .ok (E₁, ec₁))
    (h2 : drainTier rings s t handles ec₁ = .ok (E₂, ec₂)) :
    E₂ = [] ∧ ec₂ = ec₁ ∧ E₁ ++ E₂ = E₁ ∧
    (∀ ex ∈ E₁ ++ E₂, List.Pairwise (fun p q : Nat × Val => p.1 < q.1) ex.points) := by
  obtain ⟨r', hseq, hr'⟩ := writeSeq_inv ws (freshRing n m i) (ringInv_fresh n m i hn hi)
    hvalid hsorted
    (fun w _ => by rw [freshRing_tsAt]; exact Nat.zero_le _)
    (fun w _ s' _ hne => absurd (freshRing_tsAt n m i s') hne)
    (fun w h w' h' => hspan w h w' h')
  rw [hws] at hseq
  cases hseq
  obtain ⟨hframe, hdr, hex⟩ := drainTier_post hr' handles ec E₁ ec₁ h1
  rw [drainTier_of_drained rings s t handles ec₁ hdr, Except.ok.injEq, Prod.mk.injEq] at h2
  obtain ⟨hE, hec⟩ := h2
  subst hE
  subst hec
  refine ⟨rfl, rfl, List.append_nil E₁, ?_⟩
  intro ex hx
  rw [List.append_nil] at hx
  exact hex ex hx

/-- Witness for C4 (amended): two in-order writes drained in full by the
    first drain; the second drain returns nothing. -/
theorem claim_C4_witness :
    ([] : List SeriesExport) = [] ∧
    ExportCursor.mk [((0, 0, 0), 2)] = ExportCursor.mk [((0, 0, 0), 2)] ∧
    [SeriesExport.mk (SeriesHandle.mk 0 0 0) [(1, Val.fin 1), (2, Val.fin 2)]] ++ [] =
      [SeriesExport.mk (SeriesHandle.mk 0 0 0) [(1, Val.fin 1), (2, Val.fin 2)]] ∧
    (∀ ex ∈ [SeriesExport.mk (SeriesHandle.mk 0 0 0) [(1, Val.fin 1), (2, Val.fin 2)]] ++
        ([] : List SeriesExport),
      List.Pairwise (fun p q : Nat × Val => p.1 < q.1) ex.points) :=
  claim_C4_amended 3 1 1 [(0, Val.fin 1, 1), (0, Val.fin 2, 2)]
    [[RingBuffer.mk 3 1 1 [0, 1, 2] [[Val.nan], [Val.fin 1], [Val.fin 2]] 2 false]] 0 0
    (by decide) (by decide) (by decide) (by decide) (by decide) (by decide)
    [SeriesHandle.mk 0 0 0] (ExportCursor.mk []) (ExportCursor.mk [((0, 0, 0), 2)])
    (ExportCursor.mk [((0, 0, 0), 2)])
    [SeriesExport.mk (SeriesHandle.mk 0 0 0) [(1, Val.fin 1), (2, Val.fin 2)]] []
    (by decide) (by decide)

/-! ## Claim C5: register is label-order independent -/

/-- `charListLe` is total. -/
theorem charListLe_total : ∀ x y : List Char, charListLe x y = true ∨ charListLe y x = true
  | [], _ => Or.inl rfl
  | _ :: _, [] => Or.inr rfl
  | a :: as, b :: bs => by
    by_cases hab : a = b
    · subst hab
      simpa [charListLe] using charListLe_total as bs
    · rcases lt_or_gt_of_ne hab with h | h
      · left; simp [charListLe, hab, h]
      · right
        have hba : ¬ b = a := fun e => hab e.symm
        simp [charListLe, hba, h]

/-- `charListLe` is transitive. -/
theorem charListLe_trans : ∀ x y z : List Char,
    charListLe x y = true → charListLe y z = true → charListLe x z = true
  | [], _, _ => fun _ _ => rfl
  | _ :: _, [], _ => fun h _ => by simp [charListLe] at h
  | _ :: _, _ :: _, [] => fun _ h => by simp [charListLe] at h
  | a :: as, b :: bs, c :: cs => fun h₁ h₂ => by
    by_cases hab : a = b <;> by_cases hbc : b = c
    · subst hab; subst hbc
      simp only [charListLe, if_pos rfl] at h₁ h₂ ⊢
      exact charListLe_trans as bs cs h₁ h₂
    · subst hab
      simp only [charListLe, if_neg hbc] at h₂ ⊢
      exact h₂
    · subst hbc
      simp only [charListLe, if_neg hab] at h₁ ⊢
      exact h₁
    · have h₁' : a < b := by
        simp only [charListLe, if_neg hab] at h₁
        exact of_decide_eq_true h₁
      have h₂' : b < c := by
        simp only [charListLe, if_neg hbc] at h₂
        exact of_decide_eq_true h₂
      have hac : a < c := lt_trans h₁' h₂'
      have hne : ¬ a = c := ne_of_lt hac
      simp [charListLe, hne, hac]

/-- `charListLe` is antisymmetric. -/
theorem charListLe_antisymm : ∀ x y : List Char,
    charListLe x y = true → charListLe y x = true → x = y
  | [], [] => fun _ _ => rfl
  | [], _ :: _ => fun _ h => by simp [charListLe] at h
  | _ :: _, [] => fun h _ => by simp [charListLe] at h
  | a :: as, b :: bs => fun h₁ h₂ => by
    by_cases hab : a = b
    · subst hab
      simp only [charListLe, if_pos rfl] at h₁ h₂
      rw [charListLe_antisymm as bs h₁ h₂]
    · have h₁' : a < b := by
        simp only [charListLe, if_neg hab] at h₁
        exact of_decide_eq_true h₁
      have hba : ¬ b = a := fun e => hab e.symm
      have h₂' : b < a := by
        simp only [charListLe, if_neg hba] at h₂
        exact of_decide_eq_true h₂
      exact absurd h₂' (lt_asymm h₁')

instance : IsTotal (String × String) keyLE :=
  ⟨fun a b => charListLe_total a.1.data b.1.data⟩

instance : IsTrans (String × String) keyLE :=
  ⟨fun a b c => charListLe_trans a.1.data b.1.data c.1.data⟩

/-- Two strings with the same character data are equal. -/
theorem string_eq_of_data_eq {s t : String} (h : s.data = t.data) : s = t := by
  cases s; cases t; exact congrArg String.mk h


instance : IsAntisymm (String × String) keyLT :=
  ⟨fun _ _ h₁ h₂ =>
    absurd (string_eq_of_data_eq (charListLe_antisymm _ _ h₁.1 h₂.1)) h₁.2⟩

/-- Stable sorting by key alone is insensitive to the supplied order when the
    keys are pairwise distinct: the canonical `SeriesKey` is the same. -/
theorem mkSeriesKey_perm (name : String) {l₁ l₂ : List (String × String)}
    (hperm : l₁.Perm l₂) (hnodup : (l₁.map Prod.fst).Nodup) :
    mkSeriesKey name l₁ = mkSeriesKey name l₂ := by
  unfold mkSeriesKey
  have hsym : ∀ {x y : String × String}, x.1 ≠ y.1 → y.1 ≠ x.1 :=
    fun h e => h e.symm
  have hk₁ : List.Pairwise (fun a b : String × String => a.1 ≠ b.1) l₁ :=
    List.pairwise_map.mp hnodup
  have hs₁ : List.Pairwise keyLT (List.insertionSort keyLE l₁) := by
    have hp := List.Pairwise.and (List.sorted_insertionSort keyLE l₁)
      (((List.perm_insertionSort keyLE l₁).pairwise_iff hsym).mpr hk₁)
    exact hp.imp (fun h => ⟨h.1, h.2⟩)
  have hs₂ : List.Pairwise keyLT (List.insertionSort keyLE l₂) := by
    have hk₂ : List.Pairwise (fun a b : String × String => a.1 ≠ b.1) l₂ :=
      (hperm.pairwise_iff hsym).mp hk₁
    have hp := List.Pairwise.and (List.sorted_insertionSort keyLE l₂)
      (((List.perm_insertionSort keyLE l₂).pairwise_iff hsym).mpr hk₂)
    exact hp.imp (fun h => ⟨h.1, h.2⟩)
  have hp : (List.insertionSort keyLE l₁).Perm (List.insertionSort keyLE l₂) :=
    ((List.perm_insertionSort keyLE l₁).trans hperm).trans
      (List.perm_insertionSort keyLE l₂).symm
  exact congrArg (SeriesKey.mk name) (List.eq_of_perm_of_sorted hp hs₁ hs₂)

/-- `register` reduction: an existing series returns its handle and leaves
    the registry untouched. -/
theorem register_found {reg : SeriesRegistry} {name : String}
    {labels : List (String × String)} {info : SeriesInfo}
    (hname : ¬ name = "") (hval : labels.all validLabel = true)
    (hfind : findSeries reg.series_map (mkSeriesKey name labels) = some info) :
    register reg name labels = .ok (info.handle, reg) := by
  rw [register, if_neg hname, if_pos hval, hfind]

/-- `register` reduction: an unknown key falls through to `registerNew`. -/
theorem register_new {reg : SeriesRegistry} {name : String}
    {labels : List (String × String)}
    (hname : ¬ name = "") (hval : labels.all validLabel = true)
    (hfind : findSeries reg.series_map (mkSeriesKey name labels) = none) :
    register reg name labels = registerNew reg name labels := by
  rw [register, if_neg hname, if_pos hval, hfind]

/-- `registerNew` reduction: no matching schema. -/
theorem registerNew_none_schema {reg : SeriesRegistry} {name : String}
    {labels : List (String × String)}
    (hms : findMatchingSchema reg.schemas labels = none) :
    registerNew reg name labels = .error .noMatchingSchema := by
  simp only [registerNew, hms]

/-- `registerNew` reduction: matching schema at capacity. -/
theorem registerNew_capacity {reg : SeriesRegistry} {name : String}
    {labels : List (String × String)} {schemaIndex : Nat}
    (hms : findMatchingSchema reg.schemas labels = some schemaIndex)
    (hcap : (reg.schemas.getD schemaIndex (SchemaConfig.mk "" [] [] 0)).max_series ≤
        reg.next_series_id.getD schemaIndex 0) :
    registerNew reg name labels = .error .maxSeriesExceeded := by
  simp only [registerNew, hms]
  rw [if_pos hcap]

/-- `registerNew` reduction: successful allocation. -/
theorem registerNew_some {reg : SeriesRegistry} {name : String}
    {labels : List (String × String)} {schemaIndex : Nat}
    (hms : findMatchingSchema reg.schemas labels = some schemaIndex)
    (hcap : ¬ (reg.schemas.getD schemaIndex (SchemaConfig.mk "" [] [] 0)).max_series ≤
        reg.next_series_id.getD schemaIndex 0) :
    registerNew reg name labels =
      .ok ((SeriesInfo.mk name labels schemaIndex (reg.next_series_id.getD schemaIndex 0)
              (reg.next_column.getD schemaIndex 0)).handle,
        { reg with
          series_map := reg.series_map ++
            [(mkSeriesKey name labels,
              SeriesInfo.mk name labels schemaIndex (reg.next_series_id.getD schemaIndex 0)
                (reg.next_column.getD schemaIndex 0))]
          next_series_id := reg.next_series_id.set schemaIndex
            (reg.next_series_id.getD schemaIndex 0 + 1)
          next_column := reg.next_column.set schemaIndex
            (reg.next_column.getD schemaIndex 0 + 1) }) := by
  simp only [registerNew, hms]
  rw [if_neg hcap]

/-- A key appended to a map that does not already contain it is found. -/
theorem findSeries_append_self (m : List (SeriesKey × SeriesInfo)) (key : SeriesKey)
    (info : SeriesInfo) (h : findSeries m key = none) :
    findSeries (m ++ [(key, info)]) key = some info := by
  unfold findSeries at h ⊢
  rw [Option.map_eq_none'] at h
  rw [List.find?_append, h]
  simp [List.find?]

/-- C5 — counterexample: the claim quantifies over label *sets* regardless of
    supplied order, with no distinct-key proviso. With the duplicate-key label
    set \x7b("a","1"), ("a","2")\x7d, `SeriesKey::new` sorts stably by key only, so
    the two supplied orders produce different canonical keys: the second
    `register` call with the same name and the same label set allocates a
    second series (handle (0,1,1) ≠ (0,0,0)) and the series count grows from
    1 to 2. -/
theorem claim_C5_counterexample :
    ((register
        (SeriesRegistry.mk
          [SchemaConfig.mk "s" [] [TierConfig.mk (Duration.mk 1 0) (Duration.mk 60 0) none] 10]
          [] [0] [0])
        "m" [("a", "1"), ("a", "2")]).toOption.map (fun p =>
      (p.1, p.2.seriesCount 0,
        (register p.2 "m" [("a", "2"), ("a", "1")]).toOption.map (fun q =>
          (q.1, q.2.seriesCount 0))))
      = some (SeriesHandle.mk 0 0 0, 1, some (SeriesHandle.mk 0 1 1, 2))) ∧
    List.Perm [("a", "1"), ("a", "2")] [("a", "2"), ("a", "1")] ∧
    SeriesHandle.mk 0 1 1 ≠ SeriesHandle.mk 0 0 0 := by
  refine ⟨by decide, List.Perm.swap _ _ _, by decide⟩

/-- C5 (amended) — when the label keys are pairwise distinct, registering the
    same name with any permutation of an already-registered label list
    succeeds with the same handle and returns the registry unchanged (hence
    the series count is unchanged). -/
theorem claim_C5_amended (reg : SeriesRegistry) (name : String)
    (labels₁ labels₂ : List (String × String))
    (hperm : labels₁.Perm labels₂)
    (hnodup : (labels₁.map Prod.fst).Nodup)
    (h₁ : SeriesHandle) (reg₁ : SeriesRegistry)
    (hr₁ : register reg name labels₁ = .ok (h₁, reg₁)) :
    register reg₁ name labels₂ = .ok (h₁, reg₁) := by
  have hname : ¬ name = "" := by
    intro h
    rw [register, if_pos h] at hr₁
    exact Except.noConfusion hr₁
  have hval₁ : labels₁.all validLabel = true := by
    by_cases h : labels₁.all validLabel = true
    · exact h
    · rw [register, if_neg hname, if_neg h] at hr₁
      exact Except.noConfusion hr₁
  have hval₂ : labels₂.all validLabel = true := by
    simp only [List.all_eq_true] at hval₁ ⊢
    intro x hx
    exact hval₁ x (hperm.mem_iff.mpr hx)
  have hkey : mkSeriesKey name labels₂ = mkSeriesKey name labels₁ :=
    (mkSeriesKey_perm name hperm hnodup).symm
  cases hfind : findSeries reg.series_map (mkSeriesKey name labels₁) with
  | some info =>
    rw [register_found hname hval₁ hfind] at hr₁
    injection hr₁ with h'
    have hh : info.handle = h₁ := congrArg Prod.fst h'
    have hreg : reg = reg₁ := congrArg Prod.snd h'
    have hfind₂ : findSeries reg₁.series_map (mkSeriesKey name labels₂) = some info := by
      rw [hkey, ← hreg]; exact hfind
    rw [register_found hname hval₂ hfind₂, hh]
  | none =>
    rw [register_new hname hval₁ hfind] at hr₁
    cases hms : findMatchingSchema reg.schemas labels₁ with
    | none =>
      rw [registerNew_none_schema hms] at hr₁
      exact Except.noConfusion hr₁
    | some sIdx =>
      by_cases hcap : (reg.schemas.getD sIdx (SchemaConfig.mk "" [] [] 0)).max_series ≤
          reg.next_series_id.getD sIdx 0
      · rw [registerNew_capacity hms hcap] at hr₁
        exact Except.noConfusion hr₁
      · rw [registerNew_some hms hcap] at hr₁
        injection hr₁ with h'
        have hh : (SeriesInfo.mk name labels₁ sIdx (reg.next_series_id.getD sIdx 0)
            (reg.next_column.getD sIdx 0)).handle = h₁ := congrArg Prod.fst h'
        have hreg : ({ reg with
            series_map := reg.series_map ++
              [(mkSeriesKey name labels₁,
                SeriesInfo.mk name labels₁ sIdx (reg.next_series_id.getD sIdx 0)
                  (reg.next_column.getD sIdx 0))]
            next_series_id := reg.next_series_id.set sIdx
              (reg.next_series_id.getD sIdx 0 + 1)
            next_column := reg.next_column.set sIdx
              (reg.next_column.getD sIdx 0 + 1) } : SeriesRegistry) = reg₁ :=
          congrArg Prod.snd h'
        have hfind₂ : findSeries reg₁.series_map (mkSeriesKey name labels₂) =
            some (SeriesInfo.mk name labels₁ sIdx (reg.next_series_id.getD sIdx 0)
              (reg.next_column.getD sIdx 0)) := by
          rw [hkey, ← hreg]
          exact findSeries_append_self _ _ _ hfind
        rw [register_found hname hval₂ hfind₂, hh]

/-- Witness for the amended C5: registering "m" with labels
    [("a","1"), ("b","2")] and then with the reversed list returns the same
    handle and registry. -/
theorem claim_C5_witness :
    List.Perm [("a", "1"), ("b", "2")] [("b", "2"), ("a", "1")] ∧
    ([("a", "1"), ("b", "2")].map (Prod.fst (α := String) (β := String))).Nodup ∧
    register
      (SeriesRegistry.mk
        [SchemaConfig.mk "s" [] [TierConfig.mk (Duration.mk 1 0) (Duration.mk 60 0) none] 10]
        [(SeriesKey.mk "m" [("a", "1"), ("b", "2")],
          SeriesInfo.mk "m" [("a", "1"), ("b", "2")] 0 0 0)] [1] [1])
      "m" [("b", "2"), ("a", "1")] =
      .ok (SeriesHandle.mk 0 0 0,
        SeriesRegistry.mk
          [SchemaConfig.mk "s" [] [TierConfig.mk (Duration.mk 1 0) (Duration.mk 60 0) none] 10]
          [(SeriesKey.mk "m" [("a", "1"), ("b", "2")],
            SeriesInfo.mk "m" [("a", "1"), ("b", "2")] 0 0 0)] [1] [1]) :=
  ⟨by decide, by decide,
    claim_C5_amended
      (SeriesRegistry.mk
        [SchemaConfig.mk "s" [] [TierConfig.mk (Duration.mk 1 0) (Duration.mk 60 0) none] 10]
        [] [0] [0])
      "m" [("a", "1"), ("b", "2")] [("b", "2"), ("a", "1")]
      (by decide) (by decide) (SeriesHandle.mk 0 0 0)
      (SeriesRegistry.mk
        [SchemaConfig.mk "s" [] [TierConfig.mk (Duration.mk 1 0) (Duration.mk 60 0) none] 10]
        [(SeriesKey.mk "m" [("a", "1"), ("b", "2")],
          SeriesInfo.mk "m" [("a", "1"), ("b", "2")] 0 0 0)] [1] [1])
      (by decide)⟩

/-- Witness for C10 on a fresh three-slot ring at timestamp 5. -/
theorem claim_C10_witness :
    ((freshRing 3 1 1).timestamps.length = (freshRing 3 1 1).slotCount ∧
      0 < (freshRing 3 1 1).slotCount ∧ (5 : Nat) ≠ 0) ∧
    ((freshRing 3 1 1).writeCore 0 Val.nan 5).newestTimestamp = some 5 ∧
    ((freshRing 3 1 1).writeCore 0 Val.nan 5).isEmpty = false :=
  ⟨⟨by decide, by decide, by decide⟩,
    (claim_C10 (freshRing 3 1 1) 0 5 (by decide) (by decide) (by decide)).2.2.1,
    (claim_C10 (freshRing 3 1 1) 0 5 (by decide) (by decide) (by decide)).2.1⟩

/-! ## Claim C3: consolidate is idempotent and progress-monotonic -/

theorem getRing_setRing_ne (rings : List (List RingBuffer)) {s t s' t' : Nat}
    (h : (s', t') ≠ (s, t)) (r : RingBuffer) :
    getRing (setRing rings s t r) s' t' = getRing rings s' t' := by
  unfold getRing setRing
  by_cases hs : s = s'
  · subst hs
    have ht : t ≠ t' := by
      intro he; exact h (by rw [he])
    by_cases hlen : s < rings.length
    · rw [getD_set_self rings _ _ hlen, getD_set_ne _ ht]
    · rw [List.set_eq_of_length_le (Nat.le_of_not_lt hlen)]
  · rw [getD_set_ne _ hs]

theorem setRing_getRing_self (rings : List (List RingBuffer)) (s t : Nat) :
    setRing rings s t (getRing rings s t) = rings := by
  unfold setRing getRing
  rw [set_getD_self, set_getD_self]

theorem getOrInit_some {cursors : List ((Nat × Nat × Nat) × Nat)} {key : Nat × Nat × Nat}
    {v : Nat} (h : lookupA cursors key = some v) :
    getOrInitializeCursor cursors key = (v, cursors) := by
  unfold getOrInitializeCursor
  rw [h]

theorem getOrInit_none {cursors : List ((Nat × Nat × Nat) × Nat)} {key : Nat × Nat × Nat}
    (h : lookupA cursors key = none) :
    getOrInitializeCursor cursors key = (0, updateA cursors key 0) := by
  unfold getOrInitializeCursor
  rw [h]

/-- After `get_or_initialize_cursor`, the pair's cursor is present and holds
    the returned value. -/
theorem lookupA_getOrInit (cursors : List ((Nat × Nat × Nat) × Nat)) (key : Nat × Nat × Nat) :
    lookupA (getOrInitializeCursor cursors key).2 key =
      some (getOrInitializeCursor cursors key).1 := by
  cases h : lookupA cursors key with
  | some v => rw [getOrInit_some h]; exact h
  | none => rw [getOrInit_none h]; exact lookupA_updateA_self cursors key 0

/-- `get_or_initialize_cursor` touches no other pair's cursor. -/
theorem lookupA_getOrInit_ne (cursors : List ((Nat × Nat × Nat) × Nat))
    {key key' : Nat × Nat × Nat} (h : key' ≠ key) :
    lookupA (getOrInitializeCursor cursors key).2 key' = lookupA cursors key' := by
  cases hl : lookupA cursors key with
  | some v => rw [getOrInit_some hl]
  | none => rw [getOrInit_none hl]; exact lookupA_updateA_ne cursors h 0

/-- `RingBuffer::write` succeeds exactly on a finite (or NaN) value and a
    nonzero timestamp, and then performs the slab mutation; in particular
    success is independent of the ring state. -/
theorem write_eq_ok {r : RingBuffer} {col : Nat} {v : Val} {ts : Nat} {r' : RingBuffer} :
    r.write col v ts = .ok r' ↔
      v.isInfinite = false ∧ ts ≠ 0 ∧ r' = r.writeCore col v ts := by
  unfold RingBuffer.write
  by_cases h₁ : v.isInfinite
  · simp [h₁]
  · by_cases h₂ : ts = 0
    · simp [h₁, h₂]
    · simp [h₁, h₂, eq_comm]

/-- `newest_timestamp` never reports a zero timestamp. -/
theorem newestTimestamp_ne_zero {r : RingBuffer} {t : Nat}
    (h : r.newestTimestamp = some t) : t ≠ 0 := by
  unfold RingBuffer.newestTimestamp at h
  by_cases he : r.isEmpty
  · rw [if_pos he] at h
    exact Option.noConfusion h
  · rw [if_neg he] at h
    by_cases ht : r.tsAt r.writeCursor ≠ 0
    · simp only [if_pos ht, Option.some.injEq] at h
      rw [← h]; exact ht
    · simp only [if_neg ht] at h
      exact Option.noConfusion h

/-- A positive exclusive end means the source has a newest timestamp. -/
theorem pairEnd_pos {src : RingBuffer} (h : 0 < pairEnd src) :
    ∃ t, src.newestTimestamp = some t ∧ pairEnd src = t + 1 ∧ t ≠ 0 := by
  unfold pairEnd at h ⊢
  cases hn : src.newestTimestamp with
  | none => rw [hn] at h; exact absurd h (by decide)
  | some t => exact ⟨t, rfl, rfl, newestTimestamp_ne_zero hn⟩

theorem consolidateTierPair_none {sch : SchemaConfig} {si s d : Nat}
    {rings : List (List RingBuffer)} {cursors : List ((Nat × Nat × Nat) × Nat)}
    (hf : (sch.tiers.getD d tierDflt).consolidation_fn = none) :
    consolidateTierPair sch si s d rings cursors = .error .noConsolidationFn := by
  unfold consolidateTierPair
  rw [hf]

theorem consolidateTierPair_some {sch : SchemaConfig} {si s d : Nat}
    {rings : List (List RingBuffer)} {cursors : List ((Nat × Nat × Nat) × Nat)}
    {f : ConsolidationFn}
    (hf : (sch.tiers.getD d tierDflt).consolidation_fn = some f) :
    consolidateTierPair sch si s d rings cursors =
      consolidateTierPairF sch si s d rings cursors f := by
  unfold consolidateTierPair
  rw [hf]

theorem runPairs_cons_ok {p : SchemaConfig × Nat × Nat × Nat}
    {ps : List (SchemaConfig × Nat × Nat × Nat)} {rings : List (List RingBuffer)}
    {cursors : List ((Nat × Nat × Nat) × Nat)} {total : Nat}
    {res : List (List RingBuffer) × List ((Nat × Nat × Nat) × Nat) × Nat}
    (hp : consolidateTierPair p.1 p.2.1 p.2.2.1 p.2.2.2 rings cursors = .ok res) :
    runPairs (p :: ps) rings cursors total = runPairs ps res.1 res.2.1 (total + res.2.2) := by
  conv_lhs => unfold runPairs
  rw [hp]

theorem runPairs_cons_err {p : SchemaConfig × Nat × Nat × Nat}
    {ps : List (SchemaConfig × Nat × Nat × Nat)} {rings : List (List RingBuffer)}
    {cursors : List ((Nat × Nat × Nat) × Nat)} {total : Nat} {e : Err}
    (hp : consolidateTierPair p.1 p.2.1 p.2.2.1 p.2.2.2 rings cursors = .error e) :
    runPairs (p :: ps) rings cursors total = .error e := by
  conv_lhs => unfold runPairs
  rw [hp]

/-- The per-window write loop never decreases the operation count, and a
    run that adds no operation leaves the destination ring untouched. -/
theorem writeWinCols_mono {pts : List (Nat × Nat × Val)} {f : ConsolidationFn} {w : Nat} :
    ∀ (cols : List Nat) (acc res : RingBuffer × Nat),
      writeWinCols pts f w cols acc = .ok res →
      acc.2 ≤ res.2 ∧ (res.2 ≤ acc.2 → res.1 = acc.1)
  | [], acc, res, h => by
    simp only [writeWinCols, Except.ok.injEq] at h
    exact ⟨le_of_eq (by rw [h]), fun _ => by rw [h]⟩
  | col :: cols, acc, res, h => by
    by_cases hemp : (winVals pts w col).isEmpty
    · simp only [writeWinCols, if_pos hemp] at h
      exact writeWinCols_mono cols acc res h
    · simp only [writeWinCols, if_neg hemp] at h
      cases hw : acc.1.write col (f.apply (winVals pts w col)) w with
      | error e => rw [hw] at h; exact Except.noConfusion h
      | ok r =>
        rw [hw] at h
        have hr := writeWinCols_mono cols (r, acc.2 + 1) res h
        refine ⟨by omega, fun hle => ?_⟩
        exact absurd hr.1 (by omega)

/-- Same for the outer loop over the windows. -/
theorem writeWins_mono {pts : List (Nat × Nat × Val)} {f : ConsolidationFn} {m : Nat} :
    ∀ (ws : List Nat) (acc res : RingBuffer × Nat),
      writeWins pts f m ws acc = .ok res →
      acc.2 ≤ res.2 ∧ (res.2 ≤ acc.2 → res.1 = acc.1)
  | [], acc, res, h => by
    simp only [writeWins, Except.ok.injEq] at h
    exact ⟨le_of_eq (by rw [h]), fun _ => by rw [h]⟩
  | win :: ws, acc, res, h => by
    simp only [writeWins] at h
    cases hc : writeWinCols pts f win (List.range m) acc with
    | error e => rw [hc] at h; exact Except.noConfusion h
    | ok acc' =>
      rw [hc] at h
      have h₁ := writeWinCols_mono (List.range m) acc acc' hc
      have h₂ := writeWins_mono ws acc' res h
      refine ⟨le_trans h₁.1 h₂.1, fun hle => ?_⟩
      rw [h₂.2 (by omega), h₁.2 (by omega)]

/-- Success of the write loop and the number of operations are independent
    of the destination ring contents (`RingBuffer::write` validates only
    its value and timestamp). -/
theorem writeWinCols_shift {pts : List (Nat × Nat × Val)} {f : ConsolidationFn} {w : Nat} :
    ∀ (cols : List Nat) (r₁ : RingBuffer) (n : Nat) (res : RingBuffer × Nat),
      writeWinCols pts f w cols (r₁, n) = .ok res →
      ∀ r₂ : RingBuffer, ∃ r₂', writeWinCols pts f w cols (r₂, n) = .ok (r₂', res.2)
  | [], r₁, n, res, h, r₂ => by
    simp only [writeWinCols, Except.ok.injEq] at h
    exact ⟨r₂, by simp only [writeWinCols, ← h]⟩
  | col :: cols, r₁, n, res, h, r₂ => by
    by_cases hemp : (winVals pts w col).isEmpty
    · simp only [writeWinCols, if_pos hemp] at h ⊢
      exact writeWinCols_shift cols r₁ n res h r₂
    · simp only [writeWinCols, if_neg hemp] at h ⊢
      cases hw : (r₁.write col (f.apply (winVals pts w col)) w) with
      | error e => rw [hw] at h; exact Except.noConfusion h
      | ok r =>
        rw [hw] at h
        obtain ⟨hinf, hts, -⟩ := write_eq_ok.mp hw
        have hw₂ : r₂.write col (f.apply (winVals pts w col)) w =
            .ok (r₂.writeCore col (f.apply (winVals pts w col)) w) :=
          write_eq_ok.mpr ⟨hinf, hts, rfl⟩
        rw [hw₂]
        exact writeWinCols_shift cols r (n + 1) res h _

/-- Same for the outer loop over the windows. -/
theorem writeWins_shift {pts : List (Nat × Nat × Val)} {f : ConsolidationFn} {m : Nat} :
    ∀ (ws : List Nat) (r₁ : RingBuffer) (n : Nat) (res : RingBuffer × Nat),
      writeWins pts f m ws (r₁, n) = .ok res →
      ∀ r₂ : RingBuffer, ∃ r₂', writeWins pts f m ws (r₂, n) = .ok (r₂', res.2)
  | [], r₁, n, res, h, r₂ => by
    simp only [writeWins, Except.ok.injEq] at h
    exact ⟨r₂, by simp only [writeWins, ← h]⟩
  | win :: ws, r₁, n, res, h, r₂ => by
    simp only [writeWins] at h ⊢
    cases hc : writeWinCols pts f win (List.range m) (r₁, n) with
    | error e => rw [hc] at h; exact Except.noConfusion h
    | ok acc' =>
      rw [hc] at h
      obtain ⟨r₂', hc₂⟩ := writeWinCols_shift (List.range m) r₁ n acc' hc r₂
      rw [hc₂]
      obtain ⟨r₂'', hrest⟩ := writeWins_shift ws acc'.1 acc'.2 res h r₂'
      exact ⟨r₂'', hrest⟩

/-- A consolidation pass that performed zero operations on some
    destination would perform zero operations — and no mutation — on any
    destination. -/
theorem writeWindows_zero_shift {dst dst' : RingBuffer} {pts : List (Nat × Nat × Val)}
    {f : ConsolidationFn} {m : Nat}
    (h : writeWindows dst pts f m = .ok (dst', 0)) (dst₂ : RingBuffer) :
    writeWindows dst₂ pts f m = .ok (dst₂, 0) := by
  unfold writeWindows at h ⊢
  obtain ⟨r₂', h₂⟩ := writeWins_shift (windowList pts) dst 0 (dst', 0) h dst₂
  have hr : r₂' = dst₂ :=
    (writeWins_mono (windowList pts) (dst₂, 0) (r₂', 0) h₂).2 (le_refl 0)
  rw [h₂, hr]

/-- Frame and progress facts of one `consolidate_tier_pair` call: only the
    destination ring of the pair changes, only the pair's own cursor
    changes, and no stored cursor value decreases. -/
theorem consolidateTierPair_post {sch : SchemaConfig} {si s d : Nat}
    {rings rings' : List (List RingBuffer)}
    {cursors cursors' : List ((Nat × Nat × Nat) × Nat)} {ops : Nat}
    (h : consolidateTierPair sch si s d rings cursors = .ok (rings', cursors', ops)) :
    (∀ s' t', (s', t') ≠ (si, d) → getRing rings' s' t' = getRing rings s' t') ∧
    (∀ key, key ≠ (si, s, d) → lookupA cursors' key = lookupA cursors key) ∧
    (∀ key v, lookupA cursors key = some v →
      ∃ v', lookupA cursors' key = some v' ∧ v ≤ v') := by
  cases hf : (sch.tiers.getD d tierDflt).consolidation_fn with
  | none => rw [consolidateTierPair_none hf] at h; exact Except.noConfusion h
  | some f =>
    rw [consolidateTierPair_some hf] at h
    unfold consolidateTierPairF at h
    by_cases hle : pairEnd (getRing rings si s) ≤
        pairStart (getRing rings si s) (sch.tiers.getD s tierDflt)
          (getOrInitializeCursor cursors (si, s, d)).1
    · rw [if_pos hle] at h
      injection h with h'
      have hrings : rings = rings' := congrArg (fun x => x.1) h'
      have hcurs : (getOrInitializeCursor cursors (si, s, d)).2 = cursors' :=
        congrArg (fun x => x.2.1) h'
      refine ⟨fun s' t' _ => by rw [← hrings], fun key hk => ?_, fun key v hv => ?_⟩
      · rw [← hcurs]
        exact lookupA_getOrInit_ne cursors hk
      · by_cases hk : key = (si, s, d)
        · subst hk
          rw [← hcurs]
          simp only [getOrInit_some hv]
          exact ⟨v, hv, le_refl v⟩
        · rw [← hcurs, lookupA_getOrInit_ne cursors hk]
          exact ⟨v, hv, le_refl v⟩
    · rw [if_neg hle] at h
      cases hww : writeWindows (getRing rings si d)
          (windowPoints (getRing rings si s) sch.max_series
            (pairStart (getRing rings si s) (sch.tiers.getD s tierDflt)
              (getOrInitializeCursor cursors (si, s, d)).1)
            (pairEnd (getRing rings si s))
            (sch.tiers.getD d tierDflt).interval.asNanos) f sch.max_series with
      | error e =>
        rw [hww] at h
        simp only [Except.map] at h
        exact Except.noConfusion h
      | ok res =>
        rw [hww] at h
        simp only [Except.map, Except.ok.injEq] at h
        have hrings : setRing rings si d res.1 = rings' := congrArg (fun x => x.1) h
        have hcurs : (if 0 < res.2 then
            updateA (getOrInitializeCursor cursors (si, s, d)).2 (si, s, d)
              ((getRing rings si s).newestTimestamp.getD 0)
          else (getOrInitializeCursor cursors (si, s, d)).2) = cursors' :=
          congrArg (fun x => x.2.1) h
        refine ⟨fun s' t' hne => ?_, fun key hk => ?_, fun key v hv => ?_⟩
        · rw [← hrings, getRing_setRing_ne rings hne]
        · rw [← hcurs]
          by_cases hops0 : 0 < res.2
          · rw [if_pos hops0, lookupA_updateA_ne _ hk, lookupA_getOrInit_ne cursors hk]
          · rw [if_neg hops0, lookupA_getOrInit_ne cursors hk]
        · by_cases hk : key = (si, s, d)
          · subst hk
            rw [← hcurs]
            by_cases hops0 : 0 < res.2
            · rw [if_pos hops0, lookupA_updateA_self]
              simp only [getOrInit_some hv] at hle
              have hlt : pairStart (getRing rings si s) (sch.tiers.getD s tierDflt) v <
                  pairEnd (getRing rings si s) := Nat.lt_of_not_le hle
              have hpos : 0 < pairEnd (getRing rings si s) := by omega
              obtain ⟨t, hnt, hpe, -⟩ := pairEnd_pos hpos
              rw [hpe] at hlt
              refine ⟨_, rfl, ?_⟩
              rw [hnt]
              by_cases hv0 : v = 0
              · simp [hv0]
              · unfold pairStart at hlt
                rw [if_neg hv0] at hlt
                simpa using by omega
            · rw [if_neg hops0]
              simp only [getOrInit_some hv]
              exact ⟨v, hv, le_refl v⟩
          · rw [← hcurs]
            by_cases hops0 : 0 < res.2
            · rw [if_pos hops0, lookupA_updateA_ne _ hk, lookupA_getOrInit_ne cursors hk]
              exact ⟨v, hv, le_refl v⟩
            · rw [if_neg hops0, lookupA_getOrInit_ne cursors hk]
              exact ⟨v, hv, le_refl v⟩

/-- Stabilization of one tier pair: after a successful
    `consolidate_tier_pair`, rerunning the pair on any state whose source
    ring and own cursor are unchanged performs zero operations and changes
    nothing (the source tier interval is positive for every validated
    configuration, `TierConfig::validate`). -/
theorem consolidateTierPair_stable {sch : SchemaConfig} {si s d : Nat}
    {rings rings' : List (List RingBuffer)}
    {cursors cursors' : List ((Nat × Nat × Nat) × Nat)} {ops : Nat}
    (hI : 0 < (sch.tiers.getD s tierDflt).interval.asNanos)
    (h : consolidateTierPair sch si s d rings cursors = .ok (rings', cursors', ops))
    (rings'' : List (List RingBuffer)) (cursors'' : List ((Nat × Nat × Nat) × Nat))
    (hsrc : getRing rings'' si s = getRing rings si s)
    (hcur : lookupA cursors'' (si, s, d) = lookupA cursors' (si, s, d)) :
    consolidateTierPair sch si s d rings'' cursors'' = .ok (rings'', cursors'', 0) := by
  cases hf : (sch.tiers.getD d tierDflt).consolidation_fn with
  | none => rw [consolidateTierPair_none hf] at h; exact Except.noConfusion h
  | some f =>
    rw [consolidateTierPair_some hf] at h
    rw [consolidateTierPair_some hf]
    unfold consolidateTierPairF at h
    by_cases hle : pairEnd (getRing rings si s) ≤
        pairStart (getRing rings si s) (sch.tiers.getD s tierDflt)
          (getOrInitializeCursor cursors (si, s, d)).1
    · rw [if_pos hle] at h
      injection h with h'
      have hcurs : (getOrInitializeCursor cursors (si, s, d)).2 = cursors' :=
        congrArg (fun x => x.2.1) h'
      have hlook : lookupA cursors'' (si, s, d) =
          some (getOrInitializeCursor cursors (si, s, d)).1 := by
        rw [hcur, ← hcurs]
        exact lookupA_getOrInit cursors (si, s, d)
      unfold consolidateTierPairF
      rw [hsrc]
      simp only [getOrInit_some hlook]
      rw [if_pos hle]
    · rw [if_neg hle] at h
      have hlt : pairStart (getRing rings si s) (sch.tiers.getD s tierDflt)
          (getOrInitializeCursor cursors (si, s, d)).1 <
          pairEnd (getRing rings si s) := Nat.lt_of_not_le hle
      cases hww : writeWindows (getRing rings si d)
          (windowPoints (getRing rings si s) sch.max_series
            (pairStart (getRing rings si s) (sch.tiers.getD s tierDflt)
              (getOrInitializeCursor cursors (si, s, d)).1)
            (pairEnd (getRing rings si s))
            (sch.tiers.getD d tierDflt).interval.asNanos) f sch.max_series with
      | error e =>
        rw [hww] at h
        simp only [Except.map] at h
        exact Except.noConfusion h
      | ok res =>
        rw [hww] at h
        simp only [Except.map, Except.ok.injEq] at h
        have hcurs : (if 0 < res.2 then
            updateA (getOrInitializeCursor cursors (si, s, d)).2 (si, s, d)
              ((getRing rings si s).newestTimestamp.getD 0)
          else (getOrInitializeCursor cursors (si, s, d)).2) = cursors' :=
          congrArg (fun x => x.2.1) h
        by_cases hops0 : 0 < res.2
        · have hpos : 0 < pairEnd (getRing rings si s) := by omega
          obtain ⟨t, hnt, hpe, htne⟩ := pairEnd_pos hpos
          have hlook : lookupA cursors'' (si, s, d) = some t := by
            rw [hcur, ← hcurs, if_pos hops0, lookupA_updateA_self, hnt]
            rfl
          have hcond : pairEnd (getRing rings si s) ≤
              pairStart (getRing rings si s) (sch.tiers.getD s tierDflt) t := by
            unfold pairStart
            rw [if_neg htne, hpe]
            omega
          unfold consolidateTierPairF
          rw [hsrc]
          simp only [getOrInit_some hlook]
          rw [if_pos hcond]
        · have h20 : res.2 = 0 := by omega
          have hres : res = (res.1, 0) := by
            rw [← h20]
          have hshift : writeWindows (getRing rings'' si d)
              (windowPoints (getRing rings si s) sch.max_series
                (pairStart (getRing rings si s) (sch.tiers.getD s tierDflt)
                  (getOrInitializeCursor cursors (si, s, d)).1)
                (pairEnd (getRing rings si s))
                (sch.tiers.getD d tierDflt).interval.asNanos) f sch.max_series =
              .ok (getRing rings'' si d, 0) := by
            apply writeWindows_zero_shift
            rw [← hres]
            exact hww
          have hlook : lookupA cursors'' (si, s, d) =
              some (getOrInitializeCursor cursors (si, s, d)).1 := by
            rw [hcur, ← hcurs, if_neg hops0]
            exact lookupA_getOrInit cursors (si, s, d)
          unfold consolidateTierPairF
          rw [hsrc]
          simp only [getOrInit_some hlook]
          rw [if_neg hle, hshift]
          simp only [Except.map]
          rw [setRing_getRing_self, if_neg (Nat.lt_irrefl 0)]

/-- Frame and progress facts of the pair loop: a ring not the destination
    of any processed pair is unchanged, a cursor not owned by any processed
    pair is unchanged, and no stored cursor value decreases. -/
theorem runPairs_post :
    ∀ (ps : List (SchemaConfig × Nat × Nat × Nat)) (rings : List (List RingBuffer))
      (cursors : List ((Nat × Nat × Nat) × Nat)) (total : Nat)
      (rings' : List (List RingBuffer)) (cursors' : List ((Nat × Nat × Nat) × Nat)) (n : Nat),
      runPairs ps rings cursors total = .ok (rings', cursors', n) →
      (∀ s' t', (∀ p ∈ ps, (s', t') ≠ (p.2.1, p.2.2.2)) →
        getRing rings' s' t' = getRing rings s' t') ∧
      (∀ key, (∀ p ∈ ps, key ≠ (p.2.1, p.2.2.1, p.2.2.2)) →
        lookupA cursors' key = lookupA cursors key) ∧
      (∀ key v, lookupA cursors key = some v →
        ∃ v', lookupA cursors' key = some v' ∧ v ≤ v')
  | [], rings, cursors, total, rings', cursors', n, h => by
    simp only [runPairs, Except.ok.injEq] at h
    have h1 : rings = rings' := congrArg (fun x => x.1) h
    have h2 : cursors = cursors' := congrArg (fun x => x.2.1) h
    exact ⟨fun s' t' _ => by rw [← h1], fun key _ => by rw [← h2],
      fun key v hv => ⟨v, by rw [← h2]; exact hv, le_refl v⟩⟩
  | p :: ps, rings, cursors, total, rings', cursors', n, h => by
    cases hp : consolidateTierPair p.1 p.2.1 p.2.2.1 p.2.2.2 rings cursors with
    | error e => rw [runPairs_cons_err hp] at h; exact Except.noConfusion h
    | ok res =>
      rw [runPairs_cons_ok hp] at h
      rcases res with ⟨rings₁, cursors₁, ops₁⟩
      have hpost := consolidateTierPair_post hp
      have hrest := runPairs_post ps rings₁ cursors₁ (total + ops₁) rings' cursors' n h
      refine ⟨fun s' t' hall => ?_, fun key hall => ?_, fun key v hv => ?_⟩
      · rw [hrest.1 s' t' (fun q hq => hall q (List.mem_cons_of_mem p hq)),
          hpost.1 s' t' (hall p (List.mem_cons_self p ps))]
      · rw [hrest.2.1 key (fun q hq => hall q (List.mem_cons_of_mem p hq)),
          hpost.2.1 key (hall p (List.mem_cons_self p ps))]
      · obtain ⟨v₁, hv₁, hvv₁⟩ := hpost.2.2 key v hv
        obtain ⟨v₂, hv₂, hvv₂⟩ := hrest.2.2 key v₁ hv₁
        exact ⟨v₂, hv₂, le_trans hvv₁ hvv₂⟩

/-- Stabilization of the pair loop: after a successful pass over a list of
    pairs whose source tiers have positive intervals, whose pairs have
    distinct cursor keys, and in which no later pair writes an earlier
    pair's source ring, rerunning the whole list performs zero operations
    and changes nothing. -/
theorem runPairs_stable :
    ∀ (ps : List (SchemaConfig × Nat × Nat × Nat)) (rings : List (List RingBuffer))
      (cursors : List ((Nat × Nat × Nat) × Nat)) (total : Nat)
      (rings' : List (List RingBuffer)) (cursors' : List ((Nat × Nat × Nat) × Nat)) (n : Nat),
      (∀ p ∈ ps, 0 < ((p.1).tiers.getD p.2.2.1 tierDflt).interval.asNanos ∧
        p.2.2.1 ≠ p.2.2.2) →
      List.Pairwise (fun p q : SchemaConfig × Nat × Nat × Nat =>
        (q.2.1, q.2.2.2) ≠ (p.2.1, p.2.2.1) ∧
        (p.2.1, p.2.2.1, p.2.2.2) ≠ (q.2.1, q.2.2.1, q.2.2.2)) ps →
      runPairs ps rings cursors total = .ok (rings', cursors', n) →
      ∀ total₂, runPairs ps rings' cursors' total₂ = .ok (rings', cursors', total₂)
  | [], rings, cursors, total, rings', cursors', n, _, _, _, total₂ => by
    simp only [runPairs]
  | p :: ps, rings, cursors, total, rings', cursors', n, hgood, hsep, h, total₂ => by
    rw [List.pairwise_cons] at hsep
    obtain ⟨hhead, htail⟩ := hsep
    cases hp : consolidateTierPair p.1 p.2.1 p.2.2.1 p.2.2.2 rings cursors with
    | error e => rw [runPairs_cons_err hp] at h; exact Except.noConfusion h
    | ok res =>
      rw [runPairs_cons_ok hp] at h
      rcases res with ⟨rings₁, cursors₁, ops₁⟩
      have hpost := consolidateTierPair_post hp
      have hrest := runPairs_post ps rings₁ cursors₁ (total + ops₁) rings' cursors' n h
      have hsd : (p.2.1, p.2.2.1) ≠ (p.2.1, p.2.2.2) := by
        intro he
        exact (hgood p (List.mem_cons_self p ps)).2 (congrArg Prod.snd he)
      have hsrc : getRing rings' p.2.1 p.2.2.1 = getRing rings p.2.1 p.2.2.1 := by
        rw [hrest.1 p.2.1 p.2.2.1 (fun q hq he => (hhead q hq).1 he.symm),
          hpost.1 p.2.1 p.2.2.1 hsd]
      have hcur : lookupA cursors' (p.2.1, p.2.2.1, p.2.2.2) =
          lookupA cursors₁ (p.2.1, p.2.2.1, p.2.2.2) :=
        hrest.2.1 _ (fun q hq => (hhead q hq).2)
      have hstab := consolidateTierPair_stable (hgood p (List.mem_cons_self p ps)).1 hp
        rings' cursors' hsrc hcur
      rw [runPairs_cons_ok hstab]
      exact runPairs_stable ps rings₁ cursors₁ (total + ops₁) rings' cursors' n
        (fun q hq => hgood q (List.mem_cons_of_mem p hq)) htail h total₂

theorem mem_schemaPairs {sch : SchemaConfig} {si : Nat} {p : SchemaConfig × Nat × Nat × Nat}
    (h : p ∈ schemaPairs sch si) :
    ∃ k, k < sch.tiers.length - 1 ∧ p = (sch, si, k, k + 1) := by
  unfold schemaPairs at h
  split at h
  · exact absurd h (List.not_mem_nil p)
  · obtain ⟨k, hk, rfl⟩ := List.mem_map.mp h
    exact ⟨k, List.mem_range.mp hk, rfl⟩

theorem mem_pairsOfAux :
    ∀ {schemas : List SchemaConfig} {j : Nat} {p : SchemaConfig × Nat × Nat × Nat},
      p ∈ pairsOfAux schemas j →
      p.1 ∈ schemas ∧ j ≤ p.2.1 ∧ ∃ k, k < p.1.tiers.length - 1 ∧ p = (p.1, p.2.1, k, k + 1)
  | [], _, p, h => absurd h (List.not_mem_nil p)
  | sch :: rest, j, p, h => by
    rcases List.mem_append.mp h with h₁ | h₂
    · obtain ⟨k, hk, rfl⟩ := mem_schemaPairs h₁
      exact ⟨List.mem_cons_self sch rest, le_refl j, k, hk, rfl⟩
    · obtain ⟨hmem, hle, hex⟩ := mem_pairsOfAux h₂
      exact ⟨List.mem_cons_of_mem sch hmem, by omega, hex⟩

/-- Within one schema the adjacent tier pairs have distinct cursor keys and
    no later pair's destination is an earlier pair's source. -/
theorem pairwise_schemaPairs (sch : SchemaConfig) (si : Nat) :
    List.Pairwise (fun p q : SchemaConfig × Nat × Nat × Nat =>
      (q.2.1, q.2.2.2) ≠ (p.2.1, p.2.2.1) ∧
      (p.2.1, p.2.2.1, p.2.2.2) ≠ (q.2.1, q.2.2.1, q.2.2.2)) (schemaPairs sch si) := by
  unfold schemaPairs
  split
  · exact List.Pairwise.nil
  · refine List.pairwise_map.mpr ((List.pairwise_lt_range _).imp ?_)
    intro a b hab
    constructor
    · intro he
      have h2 : b + 1 = a := congrArg Prod.snd he
      omega
    · intro he
      have h2 : a = b := congrArg (fun x => x.2.1) he
      omega

/-- Across the whole schema list the same separation holds. -/
theorem pairwise_pairsOfAux :
    ∀ (schemas : List SchemaConfig) (j : Nat),
      List.Pairwise (fun p q : SchemaConfig × Nat × Nat × Nat =>
        (q.2.1, q.2.2.2) ≠ (p.2.1, p.2.2.1) ∧
        (p.2.1, p.2.2.1, p.2.2.2) ≠ (q.2.1, q.2.2.1, q.2.2.2)) (pairsOfAux schemas j)
  | [], _ => List.Pairwise.nil
  | sch :: rest, j => by
    unfold pairsOfAux
    rw [List.pairwise_append]
    refine ⟨pairwise_schemaPairs sch j, pairwise_pairsOfAux rest (j + 1), ?_⟩
    intro a ha b hb
    obtain ⟨k, hk, rfl⟩ := mem_schemaPairs ha
    obtain ⟨-, hle, -⟩ := mem_pairsOfAux hb
    constructor
    · intro he
      have h1 : b.2.1 = j := congrArg Prod.fst he
      omega
    · intro he
      have h1 : j = b.2.1 := congrArg Prod.fst he
      omega

/-- Every pair of a validated configuration has a positive source interval
    and distinct source and destination tiers. -/
theorem pairsOf_good {schemas : List SchemaConfig}
    (hpos : ∀ sch ∈ schemas, ∀ t ∈ sch.tiers, 0 < t.interval.asNanos) :
    ∀ p ∈ pairsOf schemas, 0 < ((p.1).tiers.getD p.2.2.1 tierDflt).interval.asNanos ∧
      p.2.2.1 ≠ p.2.2.2 := by
  intro p hp
  obtain ⟨hmem, -, k, hk, hpe⟩ := mem_pairsOfAux hp
  have h21 : p.2.2.1 = k := congrArg (fun x => x.2.2.1) hpe
  have h22 : p.2.2.2 = k + 1 := congrArg (fun x => x.2.2.2) hpe
  constructor
  · have hklen : k < p.1.tiers.length := by omega
    have hget : p.1.tiers.getD k tierDflt = p.1.tiers[k] := by
      rw [List.getD_eq_getElem?_getD, List.getElem?_eq_getElem hklen]
      rfl
    rw [h21, hget]
    exact hpos p.1 hmem _ (List.getElem_mem hklen)
  · rw [h21, h22]
    omega

/-- C3 — for every store whose schema tiers all have positive intervals
    (every configuration accepted by `TierConfig::validate`), a successful
    `consolidate` call is idempotent: an immediately following call with no
    intervening writes succeeds, performs zero window operations, and
    returns the destination rings and cursors unchanged; moreover cursors
    never decrease across the first call. -/
theorem claim_C3 (schemas : List SchemaConfig) (rings rings₁ : List (List RingBuffer))
    (cursors cursors₁ : List ((Nat × Nat × Nat) × Nat)) (n₁ : Nat)
    (hpos : ∀ sch ∈ schemas, ∀ t ∈ sch.tiers, 0 < t.interval.asNanos)
    (h₁ : consolidate schemas rings cursors = .ok (rings₁, cursors₁, n₁)) :
    consolidate schemas rings₁ cursors₁ = .ok (rings₁, cursors₁, 0) ∧
    ∀ key v, lookupA cursors key = some v →
      ∃ v', lookupA cursors₁ key = some v' ∧ v ≤ v' := by
  unfold consolidate at h₁ ⊢
  exact ⟨runPairs_stable (pairsOf schemas) rings cursors 0 rings₁ cursors₁ n₁
      (pairsOf_good hpos) (pairwise_pairsOfAux schemas 0) h₁ 0,
    (runPairs_post (pairsOf schemas) rings cursors 0 rings₁ cursors₁ n₁ h₁).2.2⟩

/-- Witness for C3: a two-tier schema (1ns source, 2ns destination with
    the `last` reducer), source points (ts 2, 10) and (ts 3, 20); the
    first call writes the last value 20 into window 2 and advances the
    cursor to 3; the second call is a no-op. -/
theorem claim_C3_witness :
    (∀ sch ∈ [SchemaConfig.mk "s" []
        [TierConfig.mk (Duration.mk 0 1) (Duration.mk 0 6) none,
          TierConfig.mk (Duration.mk 0 2) (Duration.mk 0 12) (some ConsolidationFn.last)] 1],
      ∀ t ∈ sch.tiers, 0 < t.interval.asNanos) ∧
    consolidate
      [SchemaConfig.mk "s" []
        [TierConfig.mk (Duration.mk 0 1) (Duration.mk 0 6) none,
          TierConfig.mk (Duration.mk 0 2) (Duration.mk 0 12) (some ConsolidationFn.last)] 1]
      [[((freshRing 6 1 1).writeCore 0 (Val.fin 10) 2).writeCore 0 (Val.fin 20) 3,
        (freshRing 6 1 2).writeCore 0 (Val.fin 20) 2]]
      [((0, 0, 1), 3)] =
      .ok ([[((freshRing 6 1 1).writeCore 0 (Val.fin 10) 2).writeCore 0 (Val.fin 20) 3,
        (freshRing 6 1 2).writeCore 0 (Val.fin 20) 2]], [((0, 0, 1), 3)], 0) :=
  ⟨by decide,
    (claim_C3
      [SchemaConfig.mk "s" []
        [TierConfig.mk (Duration.mk 0 1) (Duration.mk 0 6) none,
          TierConfig.mk (Duration.mk 0 2) (Duration.mk 0 12) (some ConsolidationFn.last)] 1]
      [[((freshRing 6 1 1).writeCore 0 (Val.fin 10) 2).writeCore 0 (Val.fin 20) 3,
        freshRing 6 1 2]]
      [[((freshRing 6 1 1).writeCore 0 (Val.fin 10) 2).writeCore 0 (Val.fin 20) 3,
        (freshRing 6 1 2).writeCore 0 (Val.fin 20) 2]]
      [] [((0, 0, 1), 3)] 1 (by decide) (by decide)).1⟩

/-! ## Claim C9: lazy cursor-file creation -/

/-- C9 — counterexample: `consolidate` calls `save_cursors` unconditionally
    on its success path (consolidate.rs line 309), so a call that writes
    zero windows still creates `consolidation_cursors.json`.  On an empty
    store (no schemas) with no existing cursor file, the call performs zero
    operations yet the file afterwards exists (`some []` ≠ `none`). -/
theorem claim_C9_counterexample :
    consolidateFS [] [] [] none = .ok (([], [], 0), some []) ∧
    some ([] : List ((Nat × Nat × Nat) × Nat)) ≠ none :=
  ⟨by decide, by decide⟩

/-- C9 (amended) — cursor files are not created lazily: every successful
    `consolidate` call writes `consolidation_cursors.json` with the final
    in-memory cursors, even when zero windows were written and even when
    the file did not previously exist. -/
theorem claim_C9_amended (schemas : List SchemaConfig) (rings : List (List RingBuffer))
    (cursors : List ((Nat × Nat × Nat) × Nat)) (file : Option (List ((Nat × Nat × Nat) × Nat)))
    (rings' : List (List RingBuffer)) (cursors' : List ((Nat × Nat × Nat) × Nat)) (n : Nat)
    (file' : Option (List ((Nat × Nat × Nat) × Nat)))
    (h : consolidateFS schemas rings cursors file = .ok ((rings', cursors', n), file')) :
    file' = some cursors' ∧ file' ≠ none := by
  cases hc : consolidate schemas rings cursors with
  | error e =>
    unfold consolidateFS at h
    rw [hc] at h
    exact Except.noConfusion h
  | ok res =>
    unfold consolidateFS at h
    rw [hc] at h
    injection h with h'
    have h1 : res = (rings', cursors', n) := congrArg (fun x => x.1) h'
    have h2 : some res.2.1 = file' := congrArg (fun x => x.2) h'
    constructor
    · rw [← h2, h1]
    · rw [← h2]
      intro hx
      exact Option.noConfusion hx

/-- Witness for the amended C9 at the empty store: zero operations, yet
    the file is written. -/
theorem claim_C9_witness :
    consolidateFS [] [] [] none = .ok (([], [], 0), some []) ∧
    (some ([] : List ((Nat × Nat × Nat) × Nat)) = some [] ∧
      some ([] : List ((Nat × Nat × Nat) × Nat)) ≠ none) :=
  ⟨by decide, claim_C9_amended [] [] [] none [] [] 0 (some []) (by decide)⟩

/-! ## Claim C8: stable_hash invariance and variance -/

theorem fnDisc_inj {f g : ConsolidationFn} (h : fnDisc f = fnDisc g) : f = g := by
  cases f <;> cases g <;> simp_all [fnDisc]

/-- The two-token label-matcher chunks are uniquely decodable. -/
theorem matcherChunks_inj :
    ∀ (m₁ m₂ : List (String × String)) (r₁ r₂ : List HashToken),
      m₁.length = m₂.length →
      m₁.flatMap (fun kv => [HashToken.str kv.1, HashToken.str kv.2]) ++ r₁ =
        m₂.flatMap (fun kv => [HashToken.str kv.1, HashToken.str kv.2]) ++ r₂ →
      m₁ = m₂ ∧ r₁ = r₂
  | [], [], r₁, r₂, _, h => ⟨rfl, h⟩
  | [], q :: m₂, r₁, r₂, hlen, _ => by simp at hlen
  | p :: m₁, [], r₁, r₂, hlen, _ => by simp at hlen
  | p :: m₁, q :: m₂, r₁, r₂, hlen, h => by
    simp only [List.flatMap_cons, List.cons_append, List.append_assoc,
      List.cons.injEq, HashToken.str.injEq] at h
    obtain ⟨hk, hv, hrest⟩ := h
    have hlen' : m₁.length = m₂.length := by
      simpa using hlen
    obtain ⟨hm, hr⟩ := matcherChunks_inj m₁ m₂ r₁ r₂ hlen' (by
      simpa [List.append_assoc] using hrest)
    refine ⟨?_, hr⟩
    rw [hm]
    congr 1
    exact Prod.ext hk hv

/-- The variable-length tier chunks are uniquely decodable. -/
theorem tierChunks_inj :
    ∀ (ts₁ ts₂ : List TierConfig) (r₁ r₂ : List HashToken),
      ts₁.length = ts₂.length →
      ts₁.flatMap hashTier ++ r₁ = ts₂.flatMap hashTier ++ r₂ →
      ts₁ = ts₂ ∧ r₁ = r₂
  | [], [], r₁, r₂, _, h => ⟨rfl, h⟩
  | [], q :: ts₂, r₁, r₂, hlen, _ => by simp at hlen
  | p :: ts₁, [], r₁, r₂, hlen, _ => by simp at hlen
  | p :: ts₁, q :: ts₂, r₁, r₂, hlen, h => by
    simp only [List.flatMap_cons, hashTier, hashDuration, List.cons_append,
      List.append_assoc, List.nil_append, List.cons.injEq, HashToken.nat.injEq] at h
    obtain ⟨h₁, h₂, h₃, h₄, hrest⟩ := h
    have hfn : p.consolidation_fn = q.consolidation_fn ∧
        ts₁.flatMap hashTier ++ r₁ = ts₂.flatMap hashTier ++ r₂ := by
      cases hp : p.consolidation_fn with
      | none =>
        cases hq : q.consolidation_fn with
        | none =>
          rw [hp, hq] at hrest
          simp only [hashOptionFn, List.cons_append, List.cons.injEq, List.nil_append] at hrest
          exact ⟨rfl, by simpa [List.append_assoc] using hrest.2⟩
        | some g =>
          rw [hp, hq] at hrest
          simp [hashOptionFn] at hrest
      | some f =>
        cases hq : q.consolidation_fn with
        | none =>
          rw [hp, hq] at hrest
          simp [hashOptionFn] at hrest
        | some g =>
          rw [hp, hq] at hrest
          simp only [hashOptionFn, List.cons_append, List.cons.injEq,
            HashToken.disc.injEq, List.nil_append] at hrest
          obtain ⟨-, hfg, hrest'⟩ := hrest
          exact ⟨by rw [fnDisc_inj hfg], by simpa [List.append_assoc] using hrest'⟩
    have hlen' : ts₁.length = ts₂.length := by
      simpa using hlen
    obtain ⟨hts, hr⟩ := tierChunks_inj ts₁ ts₂ r₁ r₂ hlen' hfn.2
    refine ⟨?_, hr⟩
    rw [hts]
    congr 1
    rcases p with ⟨⟨ps, pn⟩, ⟨rs, rn⟩, pf⟩
    rcases q with ⟨⟨qs, qn⟩, ⟨ss, sn⟩, qf⟩
    simp only at h₁ h₂ h₃ h₄
    have := hfn.1
    simp only at this
    rw [h₁, h₂, h₃, h₄, this]

/-- C8 — `stable_hash` (the hasher abstracted as its input stream) is
    unchanged when only the schema's name changes, and two configurations
    hash alike exactly when their label matcher, tier list (every
    interval, retention, and reducer), and max_series agree — so any
    change to one of those fields changes the hash. -/
theorem claim_C8 (cfg : SchemaConfig) (newName : String) (cfg₂ : SchemaConfig) :
    stableHash { cfg with name := newName } = stableHash cfg ∧
    (stableHash cfg = stableHash cfg₂ ↔
      (cfg.label_matcher = cfg₂.label_matcher ∧ cfg.tiers = cfg₂.tiers ∧
        cfg.max_series = cfg₂.max_series)) := by
  constructor
  · rfl
  · constructor
    · intro h
      unfold stableHash at h
      simp only [List.cons_append, List.cons.injEq, HashToken.nat.injEq,
        List.append_assoc] at h
      obtain ⟨hmlen, hrest⟩ := h
      obtain ⟨hm, hrest₂⟩ := matcherChunks_inj _ _ _ _ hmlen hrest
      simp only [List.cons_append, List.cons.injEq, HashToken.nat.injEq] at hrest₂
      obtain ⟨htlen, hrest₃⟩ := hrest₂
      obtain ⟨ht, hms⟩ := tierChunks_inj _ _ _ _ htlen hrest₃
      simp only [List.cons.injEq, HashToken.nat.injEq] at hms
      exact ⟨hm, ht, hms.1⟩
    · intro h
      unfold stableHash
      rw [h.1, h.2.1, h.2.2]

end Rondo
